import Mathlib

/-!
Shallow embedding of the filament frame-graph core
(`src/filament/src/fg/FrameGraph.cpp`) and proofs about it.

Modelling conventions:
* C++ vectors become Lean `List`s; raw pointers into the pass vector or the
  resource registry become `Nat` positions (`Option Nat` for nullable ones).
* `uint16_t version` arithmetic is modelled with an explicit `% 65536`.
* `uint32_t` reader counts are decremented with C++ unsigned wrap semantics
  (`dec32`); they are incremented as plain `Nat` (a wrap would need 2^32
  builder calls, and increments never feed a comparison that wrap affects
  below that bound).
* `assert(...)` is fatal in the source (debug build); every operation that can
  hit an assert (or C++ UB such as out-of-range indexing) returns `Option`,
  with `none` for the fatal path.  Recoverable error paths
  (`ASSERT_POSTCONDITION_NON_FATAL`) stay inside `some` and return the
  sentinel handle, exactly as the source does.
* Driver calls are recorded as a trace of `Event`s; the driver itself is a
  fresh-handle counter.  Pass executors are opaque user code; they are
  modelled as a trace marker that issues no driver calls of its own
  (the `Present` executor in the source is literally empty).
-/

namespace FG

/-- Texture descriptor (`FrameGraphResource::Descriptor`).  The frame graph
only copies descriptors around; no claim inspects the individual fields. -/
structure Descriptor where
  width : Nat := 1
  height : Nat := 1
  depth : Nat := 1
  levels : Nat := 1
  samples : Nat := 1
  format : Nat := 0
  texType : Nat := 0
  deriving Repr, DecidableEq, Inhabited

/-- Modelled from the spec: `FrameGraph.h` is not part of the sources.  The
spec says a handle packs a 16-bit index and a 16-bit version and that the
sentinel ("uninitialized") value is all-ones, so the invalid index is
`65535`. -/
def sentinelIndex : Nat := 65535

/-- `FrameGraphResource`: an opaque client handle `{index, version}`.
A default-constructed handle is the sentinel. -/
structure FrameGraphResource where
  index : Nat := sentinelIndex
  version : Nat := 0
  deriving Repr, DecidableEq, Inhabited

/-- Modelled from the spec: handle validity (`FrameGraphResource::isValid`
lives in the missing header); a handle is the sentinel iff its index is the
all-ones value. -/
def FrameGraphResource.isValid (h : FrameGraphResource) : Bool :=
  h.index ≠ sentinelIndex

/-- Modelled from the spec: `FrameGraph::Builder::RWFlags` is a bit set over
COLOR and DEPTH (the header with the enumerator values is missing; only the
bit-distinctness matters). -/
def COLOR : Nat := 1

/-- Modelled from the spec: the DEPTH read/write flag bit. -/
def DEPTH : Nat := 2

/-- `fg::ResourceNode`: the versioned ("virtual") view of a logical
resource.  `resource` is the backing-registry position the node points at
after compile (a raw `Resource*` in the source). -/
structure ResourceNode where
  name : String
  index : Nat
  version : Nat := 0
  desc : Descriptor := {}
  readFlags : Nat := 0
  writeFlags : Nat := 0
  resource : Option Nat := none
  deriving Repr, DecidableEq, Inhabited

/-- `fg::Resource`: the backing ("physical") record.  `writer`, `first` and
`last` are pass positions (raw `PassNode*` in the source); `tex0`/`tex1`
are the two device texture slots (color, depth) and `target` the render
target, all driver handles modelled as `Option Nat`. -/
structure Resource where
  name : String
  writer : Option Nat := none
  first : Option Nat := none
  last : Option Nat := none
  writerCount : Nat := 0
  readerCount : Nat := 0
  desc : Descriptor := {}
  readFlags : Nat := 0
  writeFlags : Nat := 0
  tex0 : Option Nat := none
  tex1 : Option Nat := none
  target : Option Nat := none
  deriving Repr, DecidableEq, Inhabited

/-- `fg::PassNode`.  `devirtualize` and `destroy` hold backing-registry
positions; `reads`/`writes` hold the recorded handles. -/
structure PassNode where
  name : String
  id : Nat
  reads : List FrameGraphResource := []
  writes : List FrameGraphResource := []
  devirtualize : List Nat := []
  destroy : List Nat := []
  refCount : Nat := 0
  deriving Repr, DecidableEq, Inhabited

/-- `FrameGraph`: the per-frame state (pass nodes, resource nodes, backing
registry, aliases). -/
structure FrameGraph where
  passNodes : List PassNode := []
  resourceNodes : List ResourceNode := []
  resourceRegistry : List Resource := []
  aliases : List (FrameGraphResource × FrameGraphResource) := []
  deriving Repr, DecidableEq, Inhabited

/-- The empty frame graph (the state of a freshly constructed `FrameGraph`,
and the state `execute` resets to). -/
def emptyFG : FrameGraph := {}

/-- Update the element at position `i` of a list, leaving the list unchanged
when `i` is out of range. -/
def modAt (l : List α) (i : Nat) (f : α → α) : List α :=
  match l[i]? with
  | none => l
  | some a => l.set i (f a)

/-- `FrameGraph::isValid`: sentinel handles are invalid; otherwise the handle
is valid iff its version equals the node's current version.  The source
asserts `handle.index < registry.size()`, so an in-range non-sentinel index
is required (`none` models the fatal assert). -/
def FrameGraph.isValidH (fg : FrameGraph) (h : FrameGraphResource) : Option Bool :=
  if h.isValid = false then some false
  else
    match fg.resourceNodes[h.index]? with
    | none => none
    | some node => some (h.version == node.version)

/-- `FrameGraph::Builder::read` (together with `FrameGraph::getResource` and
`PassNode::read`), for the pass at position `p`: an invalid handle (sentinel
or stale version) is a recoverable error returning the sentinel and changing
nothing; otherwise OR the flags into the node's read-flag set, push
`{node.index, node.version}` onto the pass's reads and return the input
handle.  `none` models the fatal out-of-range assert in `getResource`. -/
def builderRead (fg : FrameGraph) (p : Nat) (input : FrameGraphResource)
    (readFlags : Nat) : Option (FrameGraph × FrameGraphResource) :=
  if input.isValid = false then some (fg, {})
  else
    match fg.resourceNodes[input.index]? with
    | none => none
    | some node =>
      if input.version ≠ node.version then some (fg, {})
      else
        let node1 := { node with readFlags := node.readFlags ||| readFlags }
        let fg1 : FrameGraph :=
          { fg with
            resourceNodes := fg.resourceNodes.set input.index node1,
            passNodes := modAt fg.passNodes p (fun q =>
              { q with reads :=
                  q.reads ++ [{ index := node1.index, version := node1.version }] }) }
        some (fg1, input)

/-- `FrameGraph::Builder::write` (together with `FrameGraph::getResource` and
`PassNode::write`): an invalid handle is a recoverable error returning the
sentinel and changing nothing; otherwise OR the flags into the node's
write-flag set, bump the node's 16-bit version, push the renamed handle
`{node.index, new version}` onto the pass's writes and return it. -/
def builderWrite (fg : FrameGraph) (p : Nat) (output : FrameGraphResource)
    (writeFlags : Nat) : Option (FrameGraph × FrameGraphResource) :=
  if output.isValid = false then some (fg, {})
  else
    match fg.resourceNodes[output.index]? with
    | none => none
    | some node =>
      if output.version ≠ node.version then some (fg, {})
      else
        let node1 := { node with
          writeFlags := node.writeFlags ||| writeFlags,
          version := (node.version + 1) % 65536 }
        let fg1 : FrameGraph :=
          { fg with
            resourceNodes := fg.resourceNodes.set output.index node1,
            passNodes := modAt fg.passNodes p (fun q =>
              { q with writes :=
                  q.writes ++ [{ index := node1.index, version := node1.version }] }) }
        some (fg1, { index := node1.index, version := node1.version })

/-- `FrameGraph::createResource` + the descriptor store in
`Builder::createTexture`: append a fresh node (version 0) whose index is the
registry size truncated to 16 bits, and return its handle. -/
def createTextureFG (fg : FrameGraph) (name : String) (desc : Descriptor) :
    FrameGraph × FrameGraphResource :=
  let idx := fg.resourceNodes.length % 65536
  let node : ResourceNode := { name := name, index := idx, desc := desc }
  ({ fg with resourceNodes := fg.resourceNodes ++ [node] },
   { index := idx, version := 0 })

/-- `FrameGraph::createPass`: append a pass node whose id is the current
number of passes. -/
def createPassFG (fg : FrameGraph) (name : String) : FrameGraph :=
  { fg with passNodes :=
      fg.passNodes ++ [{ name := name, id := fg.passNodes.length }] }

/-- `FrameGraph::moveResource`: record the alias pair, with no validation. -/
def moveResourceFG (fg : FrameGraph) (a b : FrameGraphResource) : FrameGraph :=
  { fg with aliases := fg.aliases ++ [(a, b)] }

/-- `FrameGraph::present`: register a pass named "Present" whose setup reads
the input and whose executor is empty.  Modelled from the spec: the default
`RWFlags` argument of `Builder::read` lives in the missing header; scenario
S1 (exactly one `createTexture` for a presented COLOR texture) pins it to
COLOR. -/
def presentFG (fg : FrameGraph) (input : FrameGraphResource) :
    Option FrameGraph :=
  let fg1 := createPassFG fg "Present"
  match builderRead fg1 (fg1.passNodes.length - 1) input COLOR with
  | none => none
  | some (fg2, _) => some fg2

/-- One linearized client/builder call.  `readOp`/`writeOp` act on the most
recently registered pass (the `Builder` is only handed out inside
`addPass`). -/
inductive Op where
  | newPass (name : String)
  | createTex (name : String) (desc : Descriptor)
  | readOp (h : FrameGraphResource) (flags : Nat)
  | writeOp (h : FrameGraphResource) (flags : Nat)
  | presentOp (h : FrameGraphResource)
  | moveOp (a b : FrameGraphResource)
  deriving Repr, DecidableEq

/-- Apply one builder call to the frame graph.  Handles are carried in the
ops themselves (clients may retain any handle value); `none` is a fatal
assert inside the call. -/
def applyOp (fg : FrameGraph) : Op → Option FrameGraph
  | .newPass n => some (createPassFG fg n)
  | .createTex n d => some (createTextureFG fg n d).1
  | .readOp h flags =>
    if fg.passNodes.isEmpty then some fg
    else (builderRead fg (fg.passNodes.length - 1) h flags).map Prod.fst
  | .writeOp h flags =>
    if fg.passNodes.isEmpty then some fg
    else (builderWrite fg (fg.passNodes.length - 1) h flags).map Prod.fst
  | .presentOp h => presentFG fg h
  | .moveOp a b => some (moveResourceFG fg a b)

/-- Run a sequence of builder calls on a frame graph. -/
def runOpsOn (fg : FrameGraph) : List Op → Option FrameGraph
  | [] => some fg
  | op :: rest =>
    match applyOp fg op with
    | none => none
    | some fg1 => runOpsOn fg1 rest

/-- Run a sequence of builder calls on a fresh frame graph. -/
def runOps (ops : List Op) : Option FrameGraph :=
  runOpsOn emptyFG ops

/-! ### Compile

`FrameGraph::compile` in five phases: materialize backing resources, apply
aliases, reference counting and lifetime seeding, cull, lifetime
attachment. -/

/-- Compile phase 1: for every resource node, append a fresh backing
`Resource` (copying name, descriptor and flag sets) to the registry and
point the node at it.  The source `emplace_back`s onto the existing
registry, so positions continue from its current length. -/
def phase1Go : List ResourceNode → List Resource →
    List ResourceNode × List Resource
  | [], reg => ([], reg)
  | n :: rest, reg =>
    let r : Resource := { name := n.name, desc := n.desc,
                          readFlags := n.readFlags, writeFlags := n.writeFlags }
    let n1 := { n with resource := some reg.length }
    (n1 :: (phase1Go rest (reg ++ [r])).1, (phase1Go rest (reg ++ [r])).2)

/-- Compile phase 2: apply each alias in order:
`resourceNodes[to.index].resource = resourceNodes[from.index].resource`.
The source indexes both without validation; out of range is UB (`none`). -/
def applyAliases (nodes : List ResourceNode) :
    List (FrameGraphResource × FrameGraphResource) → Option (List ResourceNode)
  | [] => some nodes
  | (a, b) :: rest =>
    match nodes[b.index]?, nodes[a.index]? with
    | some tn, some fn =>
      applyAliases (nodes.set b.index { tn with resource := fn.resource }) rest
    | _, _ => none

/-- Resolve a recorded handle index to its backing-registry position
(`resourceNodes[index].resource` in the source). -/
def resolve (nodes : List ResourceNode) (idx : Nat) : Option Nat :=
  match nodes[idx]? with
  | none => none
  | some n => n.resource

/-- Compile phase 3, one read record: bump the backing resource's
`readerCount`, set `first` if unset, set `last` to the current pass.
`k` is the position of the pass being processed. -/
def bumpRead (nodes : List ResourceNode) (reg : List Resource) (k : Nat)
    (rec : FrameGraphResource) : Option (List Resource) :=
  match resolve nodes rec.index with
  | none => none
  | some j =>
    match reg[j]? with
    | none => none
    | some r =>
      some (reg.set j { r with
        readerCount := r.readerCount + 1,
        first := if r.first = none then some k else r.first,
        last := some k })

/-- Compile phase 3, one write record: set `writer` to the current pass,
bump `writerCount`, set `first` if unset, set `last`. -/
def bumpWrite (nodes : List ResourceNode) (reg : List Resource) (k : Nat)
    (rec : FrameGraphResource) : Option (List Resource) :=
  match resolve nodes rec.index with
  | none => none
  | some j =>
    match reg[j]? with
    | none => none
    | some r =>
      some (reg.set j { r with
        writer := some k,
        writerCount := r.writerCount + 1,
        first := if r.first = none then some k else r.first,
        last := some k })

/-- Compile phase 3, one pass: process its reads then its writes. -/
def phase3Pass (nodes : List ResourceNode) (k : Nat) (p : PassNode)
    (reg : List Resource) : Option (List Resource) := do
  let reg1 ← p.reads.foldlM (fun acc rec => bumpRead nodes acc k rec) reg
  p.writes.foldlM (fun acc rec => bumpWrite nodes acc k rec) reg1

/-- Compile phase 3 over all passes (in registration order, `k` their
position): set each pass's `refCount` to the number of its writes and
update the registry from its reads and writes. -/
def phase3Go (nodes : List ResourceNode) : List PassNode → Nat →
    List Resource → Option (List PassNode × List Resource)
  | [], _, reg => some ([], reg)
  | p :: rest, k, reg =>
    match phase3Pass nodes k p reg with
    | none => none
    | some reg1 =>
      match phase3Go nodes rest (k + 1) reg1 with
      | none => none
      | some (ps, reg2) =>
        some ({ p with refCount := p.writes.length } :: ps, reg2)

/-- The `uint32_t` decrement used while culling: `--readerCount` wraps at
zero. -/
def dec32 (n : Nat) : Nat :=
  if n = 0 then 4294967295 else n - 1

/-- The cull stack seed: every backing resource whose `readerCount` is zero,
scanned in registry order.  The C++ stack is a vector pushed at the back;
our list holds its top at the head, hence the reverse. -/
def cullSeed (reg : List Resource) : List Nat :=
  ((List.range reg.length).filter
    (fun i => (reg.getD i default).readerCount == 0)).reverse

/-- Culling a pass: decrement the `readerCount` of the backing resource of
each of its reads (in order), pushing any resource whose count reaches
zero. -/
def cullReads (nodes : List ResourceNode) (reg : List Resource)
    (stack : List Nat) : List FrameGraphResource →
    Option (List Resource × List Nat)
  | [] => some (reg, stack)
  | rec :: rest =>
    match resolve nodes rec.index with
    | none => none
    | some j =>
      match reg[j]? with
      | none => none
      | some r =>
        let c := dec32 r.readerCount
        let reg1 := reg.set j { r with readerCount := c }
        let stack1 := if c = 0 then j :: stack else stack
        cullReads nodes reg1 stack1 rest

/-- Compile phase 4, the cull loop: pop a resource; assert
`writerCount ≤ 1`; skip it (log only) if it has no writer; otherwise assert
the writer's `refCount ≥ 1` and decrement it, and when it reaches zero cull
that pass via `cullReads`.  `fuel` bounds the iteration count (the source
loop runs until the stack empties). -/
def cullLoop (nodes : List ResourceNode) : Nat → List PassNode →
    List Resource → List Nat → Option (List PassNode × List Resource)
  | _, ps, reg, [] => some (ps, reg)
  | 0, _, _, _ :: _ => none
  | fuel + 1, ps, reg, i :: stack =>
    match reg[i]? with
    | none => none
    | some r =>
      if r.writerCount > 1 then none
      else
        match r.writer with
        | none => cullLoop nodes fuel ps reg stack
        | some w =>
          match ps[w]? with
          | none => none
          | some wp =>
            if wp.refCount = 0 then none
            else
              let ps1 := ps.set w { wp with refCount := wp.refCount - 1 }
              if wp.refCount - 1 = 0 then
                match cullReads nodes reg stack wp.reads with
                | none => none
                | some (reg1, stack1) => cullLoop nodes fuel ps1 reg1 stack1
              else cullLoop nodes fuel ps1 reg stack

/-- Fuel that always suffices for the cull loop: the seed is at most the
registry size and every later push consumes one read record of a culled
pass. -/
def cullFuel (ps : List PassNode) (reg : List Resource) : Nat :=
  reg.length + (ps.map (fun p => p.reads.length)).sum + 1

/-- Compile phase 5: for every backing resource (by registry position),
assert `first` is set iff `last` is set, and when it survived culling
(`readerCount` non-zero) with both set, append its position to the first
user's `devirtualize` list and the last user's `destroy` list. -/
def phase5Go : List Resource → Nat → List PassNode → Option (List PassNode)
  | [], _, ps => some ps
  | r :: rest, i, ps =>
    if (decide (r.first = none)) ≠ (decide (r.last = none)) then none
    else
      match r.first, r.last with
      | some f, some l =>
        if r.readerCount = 0 then phase5Go rest (i + 1) ps
        else
          let ps1 := modAt ps f (fun p =>
            { p with devirtualize := p.devirtualize ++ [i] })
          let ps2 := modAt ps1 l (fun p =>
            { p with destroy := p.destroy ++ [i] })
          phase5Go rest (i + 1) ps2
      | _, _ => phase5Go rest (i + 1) ps

/-- `FrameGraph::compile`. -/
def compileFG (fg : FrameGraph) : Option FrameGraph :=
  match phase1Go fg.resourceNodes fg.resourceRegistry with
  | (nodes1, reg1) =>
    match applyAliases nodes1 fg.aliases with
    | none => none
    | some nodes2 =>
      match phase3Go nodes2 fg.passNodes 0 reg1 with
      | none => none
      | some (ps3, reg3) =>
        match cullLoop nodes2 (cullFuel ps3 reg3) ps3 reg3 (cullSeed reg3) with
        | none => none
        | some (ps4, reg4) =>
          match phase5Go reg4 0 ps4 with
          | none => none
          | some ps5 =>
            some { fg with passNodes := ps5, resourceNodes := nodes2,
                           resourceRegistry := reg4 }

/-! ### Execute

`FrameGraph::execute`: for each pass in order, skip it when culled
(`refCount == 0`), otherwise create the resources on its `devirtualize`
list, invoke the executor, destroy the resources on its `destroy` list;
finally reset all per-frame state. -/

/-- One observable event of a frame: a driver call or an executor
invocation. -/
inductive Event where
  | createTexture (slot : Nat) (h : Nat)
  | createRenderTarget (h : Nat)
  | destroyTexture (h : Nat)
  | destroyRenderTarget (h : Nat)
  | execPass (id : Nat)
  deriving Repr, DecidableEq

/-- Whether an event is a driver create call. -/
def Event.isCreate : Event → Bool
  | .createTexture _ _ => true
  | .createRenderTarget _ => true
  | _ => false

/-- Whether an event is a driver destroy call. -/
def Event.isDestroy : Event → Bool
  | .destroyTexture _ => true
  | .destroyRenderTarget _ => true
  | _ => false

/-- The driver calls of a trace (executor markers dropped). -/
def driverCalls (tr : List Event) : List Event :=
  tr.filter (fun e => e.isCreate || e.isDestroy)

/-- The pass ids of the executor invocations in a trace, in order. -/
def execIds (tr : List Event) : List Nat :=
  tr.filterMap (fun e =>
    match e with
    | .execPass i => some i
    | _ => none)

/-- `Resource::create`, reader half: when the resource has readers, assert
its read-flag set is non-empty (`none` on failure) and create the color
(slot 0) and/or depth (slot 1) texture.  `next` is the driver's
fresh-handle counter. -/
def createResTex (next : Nat) (r : Resource) :
    Option (Nat × Resource × List Event) :=
  if r.readerCount ≠ 0 then
    if r.readFlags = 0 then none
    else if r.readFlags &&& COLOR ≠ 0 then
      if r.readFlags &&& DEPTH ≠ 0 then
        some (next + 2, { r with tex0 := some next, tex1 := some (next + 1) },
              [Event.createTexture 0 next, Event.createTexture 1 (next + 1)])
      else some (next + 1, { r with tex0 := some next },
                 [Event.createTexture 0 next])
    else if r.readFlags &&& DEPTH ≠ 0 then
      some (next + 1, { r with tex1 := some next },
            [Event.createTexture 1 next])
    else some (next, r, [])
  else some (next, r, [])

/-- `Resource::create`, writer half: when the resource has writers, assert
its write-flag set is non-empty (`none` on failure) and create the render
target bound to the texture slots. -/
def createResTarget (next : Nat) (r : Resource) :
    Option (Nat × Resource × List Event) :=
  if r.writerCount ≠ 0 then
    if r.writeFlags = 0 then none
    else some (next + 1, { r with target := some next },
               [Event.createRenderTarget next])
  else some (next, r, [])

/-- `Resource::create`: the reader half then the writer half. -/
def createRes (next : Nat) (r : Resource) :
    Option (Nat × Resource × List Event) :=
  match createResTex next r with
  | none => none
  | some (n1, r1, e1) =>
    match createResTarget n1 r1 with
    | none => none
    | some (n2, r2, e2) => some (n2, r2, e1 ++ e2)

/-- `Resource::destroy`: destroy the created texture slots (0 then 1) and
the render target.  Modelled from the spec: the driver headers are missing;
the destroy entry points consume the handle, so the slots are cleared
(`Resource::~Resource` asserts they are clear at frame reset). -/
def destroyRes (r : Resource) : Resource × List Event :=
  let (r1, e1) :=
    match r.tex0 with
    | some h => ({ r with tex0 := none }, [Event.destroyTexture h])
    | none => (r, [])
  let (r2, e2) :=
    match r1.tex1 with
    | some h => ({ r1 with tex1 := none }, [Event.destroyTexture h])
    | none => (r1, [])
  let (r3, e3) :=
    match r2.target with
    | some h => ({ r2 with target := none }, [Event.destroyRenderTarget h])
    | none => (r2, [])
  (r3, e1 ++ e2 ++ e3)

/-- Create every resource on a `devirtualize` list (in order). -/
def devirtAll (reg : List Resource) (next : Nat) : List Nat →
    Option (List Resource × Nat × List Event)
  | [] => some (reg, next, [])
  | i :: rest =>
    match reg[i]? with
    | none => none
    | some r =>
      match createRes next r with
      | none => none
      | some (next1, r1, ev) =>
        match devirtAll (reg.set i r1) next1 rest with
        | none => none
        | some (reg2, next2, ev2) => some (reg2, next2, ev ++ ev2)

/-- Destroy every resource on a `destroy` list (in order). -/
def destroyAll (reg : List Resource) : List Nat →
    Option (List Resource × List Event)
  | [] => some (reg, [])
  | i :: rest =>
    match reg[i]? with
    | none => none
    | some r =>
      let (r1, ev) := destroyRes r
      match destroyAll (reg.set i r1) rest with
      | none => none
      | some (reg2, ev2) => some (reg2, ev ++ ev2)

/-- Execute one pass: culled passes (`refCount == 0`) are skipped entirely;
otherwise devirtualize, invoke the executor, destroy. -/
def runPassNode (reg : List Resource) (next : Nat) (p : PassNode) :
    Option (List Resource × Nat × List Event) :=
  if p.refCount = 0 then some (reg, next, [])
  else
    match devirtAll reg next p.devirtualize with
    | none => none
    | some (reg1, next1, evC) =>
      match destroyAll reg1 p.destroy with
      | none => none
      | some (reg2, evD) =>
        some (reg2, next1, evC ++ [Event.execPass p.id] ++ evD)

/-- The execute loop over all passes, in list (registration) order. -/
def execGo : List PassNode → List Resource → Nat →
    Option (List Resource × Nat × List Event)
  | [], reg, next => some (reg, next, [])
  | p :: rest, reg, next =>
    match runPassNode reg next p with
    | none => none
    | some (reg1, next1, ev1) =>
      match execGo rest reg1 next1 with
      | none => none
      | some (reg2, next2, ev2) => some (reg2, next2, ev1 ++ ev2)

/-- `FrameGraph::execute`: run the pass loop, then reset the per-frame state
(pass nodes, resource nodes, registry, aliases).  Clearing the registry runs
`Resource::~Resource`, which asserts all driver handles were destroyed;
`none` models that assert firing. -/
def executeFG (fg : FrameGraph) : Option (List Event × FrameGraph) :=
  match execGo fg.passNodes fg.resourceRegistry 0 with
  | none => none
  | some (reg, _, ev) =>
    if reg.all (fun r => r.tex0 = none && r.tex1 = none && r.target = none) then
      some (ev, emptyFG)
    else none

/-- One whole frame from a given starting state: run the builder calls,
compile, execute. -/
def frameTrace (fg : FrameGraph) (ops : List Op) :
    Option (List Event × FrameGraph) :=
  match runOpsOn fg ops with
  | none => none
  | some fg1 =>
    match compileFG fg1 with
    | none => none
    | some fg2 => executeFG fg2

/-- `FrameGraphPassResources::getTexture`: `COLOR_ATTACHMENT` returns
slot 0, `DEPTH_ATTACHMENT` slot 1, and `DEFAULT` falls through to the color
slot unless the backing resource's read-flag set is exactly DEPTH. -/
inductive TextureUsage where
  | DEFAULT
  | COLOR_ATTACHMENT
  | DEPTH_ATTACHMENT
  deriving Repr, DecidableEq

/-- `FrameGraphPassResources::getTexture` on a frame graph state.  The
source dereferences `mResourceNodes[r.index].resource` and asserts it is
non-null; `none` models those fatal paths. -/
def getTexture (fg : FrameGraph) (r : FrameGraphResource)
    (attachment : TextureUsage) : Option (Option Nat) :=
  match fg.resourceNodes[r.index]? with
  | none => none
  | some node =>
    match node.resource with
    | none => none
    | some j =>
      match fg.resourceRegistry[j]? with
      | none => none
      | some res =>
        some (match attachment with
          | .DEFAULT => if res.readFlags = DEPTH then res.tex1 else res.tex0
          | .COLOR_ATTACHMENT => res.tex0
          | .DEPTH_ATTACHMENT => res.tex1)

/-! ### Concrete scenarios used by the claims -/

/-- Scenario S1: a pass `GBuffer` writes texture `color` (COLOR), then
`present` of the renamed handle. -/
def s1ops : List Op :=
  [Op.newPass "GBuffer", Op.createTex "color" {},
   Op.writeOp { index := 0, version := 0 } COLOR,
   Op.presentOp { index := 0, version := 1 }]

/-- The compiled frame graph of scenario S1. -/
def s1compiled : FrameGraph :=
  ((runOps s1ops).bind compileFG).getD default

/-- A one-pass, one-resource frame graph (for builder-level witnesses). -/
def c2fg : FrameGraph :=
  { passNodes := [{ name := "A", id := 0 }],
    resourceNodes := [{ name := "x", index := 0 }] }

/-- A frame graph whose only resource node sits at version 65535, the
largest value of the 16-bit version counter. -/
def c2fgWrap : FrameGraph :=
  { passNodes := [{ name := "A", id := 0 }],
    resourceNodes := [{ name := "x", index := 0, version := 65535 }] }

/-- A write chain: pass A writes `x`, pass B reads and writes the renamed
handle, and the final handle is presented.  Every call is accepted, compile
succeeds, and the backing resource ends with two writers. -/
def c3ops : List Op :=
  [Op.newPass "A", Op.createTex "x" {},
   Op.writeOp { index := 0, version := 0 } COLOR,
   Op.newPass "B",
   Op.readOp { index := 0, version := 1 } COLOR,
   Op.writeOp { index := 0, version := 1 } COLOR,
   Op.presentOp { index := 0, version := 2 }]

/-- The compiled frame graph of the write-chain scenario. -/
def c3compiled : FrameGraph :=
  ((runOps c3ops).bind compileFG).getD default

/-- A write chain with no reader at all: both writes are accepted and the
unread resource reaches the cull stack with `writerCount = 2`, so the
culling assert fires. -/
def c3badOps : List Op :=
  [Op.newPass "A", Op.createTex "x" {},
   Op.writeOp { index := 0, version := 0 } COLOR,
   Op.newPass "B",
   Op.writeOp { index := 0, version := 1 } COLOR]

/-- Culling scenario: pass A writes `shadow` which nobody ever reads;
pass B writes `final`, which is presented. -/
def c4ops : List Op :=
  [Op.newPass "A", Op.createTex "shadow" {},
   Op.writeOp { index := 0, version := 0 } COLOR,
   Op.newPass "B", Op.createTex "final" {},
   Op.writeOp { index := 1, version := 0 } COLOR,
   Op.presentOp { index := 1, version := 1 }]

/-- The compiled frame graph of the culling scenario. -/
def c4compiled : FrameGraph :=
  ((runOps c4ops).bind compileFG).getD default

/-- Pass A of the culling scenario, as built (pre-compile). -/
def c4passA : PassNode :=
  ((runOps c4ops).getD default).passNodes.getD 0 default

/-- Lifetime scenario: one pass writes a texture which is presented, so the
backing resource survives culling with a reader and gets a lifetime. -/
def c5ops : List Op :=
  [Op.newPass "P", Op.createTex "t" {},
   Op.writeOp { index := 0, version := 0 } COLOR,
   Op.presentOp { index := 0, version := 1 }]

/-- The compiled frame graph of the lifetime scenario. -/
def c5compiled : FrameGraph :=
  ((runOps c5ops).bind compileFG).getD default

/-- The single backing resource of the lifetime scenario after compile. -/
def c5res : Resource :=
  c5compiled.resourceRegistry.getD 0 default

/-- A zero-flag read of a live resource: pass A writes `x` (COLOR), pass B
reads `x` with an empty flag set and writes `y` (COLOR), and `y` is
presented.  `x` survives culling with `readerCount = 1` but
`readFlags = 0`, so realizing it trips `Resource::create`'s assert. -/
def c10ops : List Op :=
  [Op.newPass "A", Op.createTex "x" {},
   Op.writeOp { index := 0, version := 0 } COLOR,
   Op.newPass "B",
   Op.readOp { index := 0, version := 1 } 0,
   Op.createTex "y" {},
   Op.writeOp { index := 1, version := 0 } COLOR,
   Op.presentOp { index := 1, version := 1 }]

/-- A self-contained pass that writes `x` and reads its renamed handle back:
the resource is realized and destroyed inside the same pass, so the whole
frame (compile and execute) succeeds. -/
def rwOps : List Op :=
  [Op.newPass "A", Op.createTex "x" {},
   Op.writeOp { index := 0, version := 0 } COLOR,
   Op.readOp { index := 0, version := 1 } COLOR]

/-- The compiled frame graph of the self-contained read-own-write
scenario. -/
def rwCompiled : FrameGraph :=
  ((runOps rwOps).bind compileFG).getD default

/-- The frame trace of the read-own-write scenario. -/
def rwTrace : List Event :=
  [Event.createTexture 0 0, Event.createRenderTarget 1,
   Event.execPass 0, Event.destroyTexture 0, Event.destroyRenderTarget 1]

/-- The passes that survived culling (`refCount != 0`), in registration
order; exactly the passes the execute loop runs. -/
def livePasses (ps : List PassNode) : List PassNode :=
  ps.filter (fun p => p.refCount != 0)

/-! ### Measurement definitions used to state the compile invariants -/

/-- The number of records in a list that resolve to backing position
`j`. -/
def countResolve (nodes : List ResourceNode)
    (recs : List FrameGraphResource) (j : Nat) : Nat :=
  recs.countP (fun rec => resolve nodes rec.index == some j)

/-- The total number of write records, across all passes, that resolve to
backing position `j`. -/
def countWrites (nodes : List ResourceNode) (ps : List PassNode)
    (j : Nat) : Nat :=
  (ps.map (fun p => countResolve nodes p.writes j)).sum

/-- The total number of read records, across all passes, that resolve to
backing position `j`. -/
def countReads (nodes : List ResourceNode) (ps : List PassNode)
    (j : Nat) : Nat :=
  (ps.map (fun p => countResolve nodes p.reads j)).sum

/-- A backing record as compile phase 1 creates it. -/
def freshRes (n : ResourceNode) : Resource :=
  { name := n.name, desc := n.desc,
    readFlags := n.readFlags, writeFlags := n.writeFlags }

/-- A backing record untouched by reference counting: zero counts, no
writer, no first/last user. -/
def FreshCounts (r : Resource) : Prop :=
  r.readerCount = 0 ∧ r.writerCount = 0 ∧ r.writer = none ∧
  r.first = none ∧ r.last = none

/-- The first/last lifetime invariant for a registry whose processed pass
positions are below `k`: `first` and `last` are set together, in order,
and below `k`. -/
def FLInv (reg : List Resource) (k : Nat) : Prop :=
  ∀ (j : Nat) (r : Resource), reg[j]? = some r →
    (r.first = none ∧ r.last = none) ∨
    (∃ f l, r.first = some f ∧ r.last = some l ∧ f ≤ l ∧ l < k)

/-- Two registries that differ only in `readerCount`s (what culling may
change). -/
def regSim (a b : List Resource) : Prop :=
  ∀ (j : Nat), ∃ (c : Nat),
    b[j]? = (a[j]?).map (fun r : Resource => { r with readerCount := c })

/-- Two pass lists that differ only in `refCount`s (what culling may
change). -/
def passSim (a b : List PassNode) : Prop :=
  ∀ (i : Nat), ∃ (c : Nat),
    b[i]? = (a[i]?).map (fun p : PassNode => { p with refCount := c })

/-- The resolved backing positions of a pass's write records. -/
def writeTargets (nodes : List ResourceNode) (q : PassNode) : List Nat :=
  q.writes.filterMap (fun rec => resolve nodes rec.index)

/-- Two pass lists where the second only appends to `devirtualize` and
`destroy` lists (what phase 5 may do). -/
def passApp (a b : List PassNode) : Prop :=
  ∀ (k : Nat), ∃ dv ds,
    b[k]? = (a[k]?).map (fun q : PassNode =>
      { q with devirtualize := q.devirtualize ++ dv,
               destroy := q.destroy ++ ds })

/-! ## Theorems -/

/-! ### Phase 3 characterization -/

/-- What a successful `bumpRead` looks like. -/
theorem bumpRead_some (nodes : List ResourceNode) (reg : List Resource)
    (k : Nat) (rec : FrameGraphResource) (reg' : List Resource)
    (h : bumpRead nodes reg k rec = some reg') :
    ∃ j r, resolve nodes rec.index = some j ∧ reg[j]? = some r ∧
      j < reg.length ∧
      reg' = reg.set j { r with
        readerCount := r.readerCount + 1,
        first := if r.first = none then some k else r.first,
        last := some k } := by
  unfold bumpRead at h
  cases hres : resolve nodes rec.index with
  | none => rw [hres] at h; exact Option.noConfusion h
  | some j =>
    rw [hres] at h
    simp only at h
    cases hr : reg[j]? with
    | none => rw [hr] at h; exact Option.noConfusion h
    | some r =>
      rw [hr] at h
      simp only [Option.some.injEq] at h
      exact ⟨j, r, rfl, hr, (List.getElem?_eq_some.mp hr).1, h.symm⟩

/-- What a successful `bumpWrite` looks like. -/
theorem bumpWrite_some (nodes : List ResourceNode) (reg : List Resource)
    (k : Nat) (rec : FrameGraphResource) (reg' : List Resource)
    (h : bumpWrite nodes reg k rec = some reg') :
    ∃ j r, resolve nodes rec.index = some j ∧ reg[j]? = some r ∧
      j < reg.length ∧
      reg' = reg.set j { r with
        writer := some k,
        writerCount := r.writerCount + 1,
        first := if r.first = none then some k else r.first,
        last := some k } := by
  unfold bumpWrite at h
  cases hres : resolve nodes rec.index with
  | none => rw [hres] at h; exact Option.noConfusion h
  | some j =>
    rw [hres] at h
    simp only at h
    cases hr : reg[j]? with
    | none => rw [hr] at h; exact Option.noConfusion h
    | some r =>
      rw [hr] at h
      simp only [Option.some.injEq] at h
      exact ⟨j, r, rfl, hr, (List.getElem?_eq_some.mp hr).1, h.symm⟩

/-- Pointwise effect of the reads fold of one pass: each entry's
`readerCount` grows by the number of records resolving to it; writer
fields are untouched; `first`/`last` are set (first-if-unset) when at
least one record resolves to the entry. -/
theorem foldReads_spec (nodes : List ResourceNode) (k : Nat)
    (recs : List FrameGraphResource) (reg reg' : List Resource)
    (h : recs.foldlM (fun acc rec => bumpRead nodes acc k rec) reg =
      some reg') :
    ∀ (i : Nat) (r0 : Resource), reg[i]? = some r0 →
      ∃ r1, reg'[i]? = some r1 ∧
        r1.readerCount = r0.readerCount + countResolve nodes recs i ∧
        r1.writerCount = r0.writerCount ∧
        r1.writer = r0.writer ∧
        r1.first = (if countResolve nodes recs i = 0 then r0.first
                    else if r0.first = none then some k else r0.first) ∧
        r1.last = (if countResolve nodes recs i = 0 then r0.last
                   else some k) := by
  induction recs generalizing reg with
  | nil =>
    intro i r0 hr0
    have hre : reg = reg' := by simpa [List.foldlM_nil] using h
    subst hre
    exact ⟨r0, hr0, by simp [countResolve]⟩
  | cons rec rest ih =>
    intro i r0 hr0
    rw [List.foldlM_cons] at h
    cases hb : bumpRead nodes reg k rec with
    | none => rw [hb] at h; exact Option.noConfusion h
    | some regm =>
      rw [hb] at h
      obtain ⟨j, r, hres, hrj, hjlt, hregm⟩ :=
        bumpRead_some nodes reg k rec regm hb
      by_cases hij : j = i
      · subst hij
        have hr0' : r = r0 := by rw [hrj] at hr0; exact Option.some.inj hr0
        subst hr0'
        have hmid : regm[j]? = some { r with
            readerCount := r.readerCount + 1,
            first := if r.first = none then some k else r.first,
            last := some k } := by
          rw [hregm]; exact List.getElem?_set_self hjlt
        obtain ⟨r1, hr1, hrc, hwc, hw, hf, hl⟩ := ih regm h j _ hmid
        refine ⟨r1, hr1, ?_, hwc, hw, ?_, ?_⟩
        · rw [hrc]
          simp only [countResolve, List.countP_cons, hres]
          simp [countResolve]
          omega
        · rw [hf]
          simp only [countResolve, List.countP_cons, hres]
          simp only [beq_self_eq_true, if_true]
          by_cases h0 : r.first = none <;>
            by_cases hc : (List.countP
              (fun rec => resolve nodes rec.index == some j) rest) = 0 <;>
            simp_all [countResolve]
        · rw [hl]
          simp only [countResolve, List.countP_cons, hres]
          by_cases hc : (List.countP
            (fun rec => resolve nodes rec.index == some j) rest) = 0 <;>
            simp_all [countResolve]
      · have hmid : regm[i]? = some r0 := by
          rw [hregm, List.getElem?_set_ne hij, hr0]
        obtain ⟨r1, hr1, hrc, hwc, hw, hf, hl⟩ := ih regm h i r0 hmid
        have hcnt : countResolve nodes (rec :: rest) i =
            countResolve nodes rest i := by
          simp only [countResolve, List.countP_cons, hres]
          simp [hij]
        exact ⟨r1, hr1, by rw [hrc, hcnt], hwc, hw, by rw [hf, hcnt],
          by rw [hl, hcnt]⟩

/-- Pointwise effect of the writes fold of one pass: each entry's
`writerCount` grows by the number of records resolving to it, its `writer`
becomes the current pass when at least one record resolves to it, reader
counts are untouched, and `first`/`last` are maintained like for reads. -/
theorem foldWrites_spec (nodes : List ResourceNode) (k : Nat)
    (recs : List FrameGraphResource) (reg reg' : List Resource)
    (h : recs.foldlM (fun acc rec => bumpWrite nodes acc k rec) reg =
      some reg') :
    ∀ (i : Nat) (r0 : Resource), reg[i]? = some r0 →
      ∃ r1, reg'[i]? = some r1 ∧
        r1.readerCount = r0.readerCount ∧
        r1.writerCount = r0.writerCount + countResolve nodes recs i ∧
        r1.writer = (if countResolve nodes recs i = 0 then r0.writer
                     else some k) ∧
        r1.first = (if countResolve nodes recs i = 0 then r0.first
                    else if r0.first = none then some k else r0.first) ∧
        r1.last = (if countResolve nodes recs i = 0 then r0.last
                   else some k) := by
  induction recs generalizing reg with
  | nil =>
    intro i r0 hr0
    have hre : reg = reg' := by simpa [List.foldlM_nil] using h
    subst hre
    exact ⟨r0, hr0, by simp [countResolve]⟩
  | cons rec rest ih =>
    intro i r0 hr0
    rw [List.foldlM_cons] at h
    cases hb : bumpWrite nodes reg k rec with
    | none => rw [hb] at h; exact Option.noConfusion h
    | some regm =>
      rw [hb] at h
      obtain ⟨j, r, hres, hrj, hjlt, hregm⟩ :=
        bumpWrite_some nodes reg k rec regm hb
      by_cases hij : j = i
      · subst hij
        have hr0' : r = r0 := by rw [hrj] at hr0; exact Option.some.inj hr0
        subst hr0'
        have hmid : regm[j]? = some { r with
            writer := some k,
            writerCount := r.writerCount + 1,
            first := if r.first = none then some k else r.first,
            last := some k } := by
          rw [hregm]; exact List.getElem?_set_self hjlt
        obtain ⟨r1, hr1, hrc, hwc, hw, hf, hl⟩ := ih regm h j _ hmid
        refine ⟨r1, hr1, hrc, ?_, ?_, ?_, ?_⟩
        · rw [hwc]
          simp only [countResolve, List.countP_cons, hres]
          simp [countResolve]
          omega
        · rw [hw]
          simp only [countResolve, List.countP_cons, hres]
          by_cases hc : (List.countP
            (fun rec => resolve nodes rec.index == some j) rest) = 0 <;>
            simp_all [countResolve]
        · rw [hf]
          simp only [countResolve, List.countP_cons, hres]
          simp only [beq_self_eq_true, if_true]
          by_cases h0 : r.first = none <;>
            by_cases hc : (List.countP
              (fun rec => resolve nodes rec.index == some j) rest) = 0 <;>
            simp_all [countResolve]
        · rw [hl]
          simp only [countResolve, List.countP_cons, hres]
          by_cases hc : (List.countP
            (fun rec => resolve nodes rec.index == some j) rest) = 0 <;>
            simp_all [countResolve]
      · have hmid : regm[i]? = some r0 := by
          rw [hregm, List.getElem?_set_ne hij, hr0]
        obtain ⟨r1, hr1, hrc, hwc, hw, hf, hl⟩ := ih regm h i r0 hmid
        have hcnt : countResolve nodes (rec :: rest) i =
            countResolve nodes rest i := by
          simp only [countResolve, List.countP_cons, hres]
          simp [hij]
        exact ⟨r1, hr1, hrc, by rw [hwc, hcnt], by rw [hw, hcnt],
          by rw [hf, hcnt], by rw [hl, hcnt]⟩

/-- The reads fold preserves the registry length. -/
theorem foldReads_length (nodes : List ResourceNode) (k : Nat)
    (recs : List FrameGraphResource) (reg reg' : List Resource)
    (h : recs.foldlM (fun acc rec => bumpRead nodes acc k rec) reg =
      some reg') : reg'.length = reg.length := by
  induction recs generalizing reg with
  | nil =>
    have hre : reg = reg' := by simpa [List.foldlM_nil] using h
    rw [hre]
  | cons rec rest ih =>
    rw [List.foldlM_cons] at h
    cases hb : bumpRead nodes reg k rec with
    | none => rw [hb] at h; exact Option.noConfusion h
    | some regm =>
      rw [hb] at h
      obtain ⟨j, r, -, -, -, hregm⟩ := bumpRead_some nodes reg k rec regm hb
      rw [ih regm h, hregm, List.length_set]

/-- The writes fold preserves the registry length. -/
theorem foldWrites_length (nodes : List ResourceNode) (k : Nat)
    (recs : List FrameGraphResource) (reg reg' : List Resource)
    (h : recs.foldlM (fun acc rec => bumpWrite nodes acc k rec) reg =
      some reg') : reg'.length = reg.length := by
  induction recs generalizing reg with
  | nil =>
    have hre : reg = reg' := by simpa [List.foldlM_nil] using h
    rw [hre]
  | cons rec rest ih =>
    rw [List.foldlM_cons] at h
    cases hb : bumpWrite nodes reg k rec with
    | none => rw [hb] at h; exact Option.noConfusion h
    | some regm =>
      rw [hb] at h
      obtain ⟨j, r, -, -, -, hregm⟩ := bumpWrite_some nodes reg k rec regm hb
      rw [ih regm h, hregm, List.length_set]

/-- Every write record processed by a successful writes fold resolves to an
in-range backing position. -/
theorem foldWrites_inrange (nodes : List ResourceNode) (k : Nat)
    (recs : List FrameGraphResource) (reg reg' : List Resource)
    (h : recs.foldlM (fun acc rec => bumpWrite nodes acc k rec) reg =
      some reg') :
    ∀ rec ∈ recs, ∃ j, resolve nodes rec.index = some j ∧
      j < reg.length := by
  induction recs generalizing reg with
  | nil => intro rec hrec; cases hrec
  | cons rec0 rest ih =>
    intro rec hrec
    rw [List.foldlM_cons] at h
    cases hb : bumpWrite nodes reg k rec0 with
    | none => rw [hb] at h; exact Option.noConfusion h
    | some regm =>
      rw [hb] at h
      obtain ⟨j, r, hres, -, hjlt, hregm⟩ :=
        bumpWrite_some nodes reg k rec0 regm hb
      rcases List.mem_cons.mp hrec with rfl | hmem
      · exact ⟨j, hres, hjlt⟩
      · obtain ⟨j', hres', hlt'⟩ := ih regm h rec hmem
        refine ⟨j', hres', ?_⟩
        rwa [hregm, List.length_set] at hlt'

/-- The registry update shape both bumps share preserves the first/last
invariant at bound `k + 1`. -/
theorem FLInv_set_bump (reg : List Resource) (k j : Nat) (r newr : Resource)
    (hr : reg[j]? = some r) (hfl : FLInv reg (k + 1))
    (hfirst : newr.first = (if r.first = none then some k else r.first))
    (hlast : newr.last = some k) :
    FLInv (reg.set j newr) (k + 1) := by
  intro j' r' h'
  by_cases hjj : j = j'
  · subst hjj
    have : r' = newr := by
      rw [List.getElem?_set_self (List.getElem?_eq_some.mp hr).1] at h'
      exact (Option.some.inj h').symm
    subst this
    right
    cases h0 : r.first with
    | none => exact ⟨k, k, by rw [hfirst, h0]; rfl, hlast, le_refl k,
        Nat.lt_succ_self k⟩
    | some f0 =>
      rcases hfl j r hr with ⟨h1, -⟩ | ⟨f, l, hf, hl, hfle, hlk⟩
      · rw [h0] at h1; exact Option.noConfusion h1
      · have hff : f0 = f := by rw [h0] at hf; exact Option.some.inj hf
        subst hff
        exact ⟨f0, k, by rw [hfirst, h0]; simp, hlast, by omega,
          Nat.lt_succ_self k⟩
  · rw [List.getElem?_set_ne hjj] at h'
    exact hfl j' r' h'

/-- The reads fold preserves the first/last invariant at bound `k + 1`. -/
theorem foldReads_FLInv (nodes : List ResourceNode) (k : Nat)
    (recs : List FrameGraphResource) (reg reg' : List Resource)
    (h : recs.foldlM (fun acc rec => bumpRead nodes acc k rec) reg =
      some reg') (hfl : FLInv reg (k + 1)) : FLInv reg' (k + 1) := by
  induction recs generalizing reg with
  | nil =>
    have hre : reg = reg' := by simpa [List.foldlM_nil] using h
    rwa [← hre]
  | cons rec rest ih =>
    rw [List.foldlM_cons] at h
    cases hb : bumpRead nodes reg k rec with
    | none => rw [hb] at h; exact Option.noConfusion h
    | some regm =>
      rw [hb] at h
      obtain ⟨j, r, -, hrj, -, hregm⟩ := bumpRead_some nodes reg k rec regm hb
      refine ih regm h ?_
      rw [hregm]
      exact FLInv_set_bump reg k j r _ hrj hfl rfl rfl

/-- The writes fold preserves the first/last invariant at bound `k + 1`. -/
theorem foldWrites_FLInv (nodes : List ResourceNode) (k : Nat)
    (recs : List FrameGraphResource) (reg reg' : List Resource)
    (h : recs.foldlM (fun acc rec => bumpWrite nodes acc k rec) reg =
      some reg') (hfl : FLInv reg (k + 1)) : FLInv reg' (k + 1) := by
  induction recs generalizing reg with
  | nil =>
    have hre : reg = reg' := by simpa [List.foldlM_nil] using h
    rwa [← hre]
  | cons rec rest ih =>
    rw [List.foldlM_cons] at h
    cases hb : bumpWrite nodes reg k rec with
    | none => rw [hb] at h; exact Option.noConfusion h
    | some regm =>
      rw [hb] at h
      obtain ⟨j, r, -, hrj, -, hregm⟩ := bumpWrite_some nodes reg k rec regm hb
      refine ih regm h ?_
      rw [hregm]
      exact FLInv_set_bump reg k j r _ hrj hfl rfl rfl

/-- The first/last invariant is monotone in its bound. -/
theorem FLInv_mono (reg : List Resource) (k k' : Nat) (hk : k ≤ k')
    (hfl : FLInv reg k) : FLInv reg k' := by
  intro j r hr
  rcases hfl j r hr with h0 | ⟨f, l, hf, hl, hfle, hlk⟩
  · exact Or.inl h0
  · exact Or.inr ⟨f, l, hf, hl, hfle, by omega⟩

/-- Pointwise effect of processing one pass in phase 3. -/
theorem phase3Pass_spec (nodes : List ResourceNode) (k : Nat) (p : PassNode)
    (reg reg' : List Resource) (h : phase3Pass nodes k p reg = some reg') :
    ∀ (i : Nat) (r0 : Resource), reg[i]? = some r0 →
      ∃ r1, reg'[i]? = some r1 ∧
        r1.readerCount = r0.readerCount + countResolve nodes p.reads i ∧
        r1.writerCount = r0.writerCount + countResolve nodes p.writes i ∧
        r1.writer = (if countResolve nodes p.writes i = 0 then r0.writer
                     else some k) := by
  intro i r0 hr0
  unfold phase3Pass at h
  cases hra : p.reads.foldlM (fun acc rec => bumpRead nodes acc k rec) reg with
  | none => rw [hra] at h; exact Option.noConfusion h
  | some reg1 =>
    rw [hra] at h
    obtain ⟨rm, hrm, hrc, hwc, hw, -, -⟩ :=
      foldReads_spec nodes k p.reads reg reg1 hra i r0 hr0
    obtain ⟨r1, hr1, hrc', hwc', hw', -, -⟩ :=
      foldWrites_spec nodes k p.writes reg1 reg' h i rm hrm
    exact ⟨r1, hr1, by rw [hrc', hrc], by rw [hwc', hwc],
      by rw [hw', hw]⟩

/-- Processing one pass preserves the registry length. -/
theorem phase3Pass_length (nodes : List ResourceNode) (k : Nat)
    (p : PassNode) (reg reg' : List Resource)
    (h : phase3Pass nodes k p reg = some reg') : reg'.length = reg.length := by
  unfold phase3Pass at h
  cases hra : p.reads.foldlM (fun acc rec => bumpRead nodes acc k rec) reg with
  | none => rw [hra] at h; exact Option.noConfusion h
  | some reg1 =>
    rw [hra] at h
    rw [foldWrites_length nodes k p.writes reg1 reg' h,
        foldReads_length nodes k p.reads reg reg1 hra]

/-- Processing one pass preserves the first/last invariant at `k + 1`. -/
theorem phase3Pass_FLInv (nodes : List ResourceNode) (k : Nat) (p : PassNode)
    (reg reg' : List Resource) (h : phase3Pass nodes k p reg = some reg')
    (hfl : FLInv reg (k + 1)) : FLInv reg' (k + 1) := by
  unfold phase3Pass at h
  cases hra : p.reads.foldlM (fun acc rec => bumpRead nodes acc k rec) reg with
  | none => rw [hra] at h; exact Option.noConfusion h
  | some reg1 =>
    rw [hra] at h
    exact foldWrites_FLInv nodes k p.writes reg1 reg' h
      (foldReads_FLInv nodes k p.reads reg reg1 hra hfl)

/-- Every write record of a pass processed by phase 3 resolves in range. -/
theorem phase3Pass_inrange (nodes : List ResourceNode) (k : Nat)
    (p : PassNode) (reg reg' : List Resource)
    (h : phase3Pass nodes k p reg = some reg') :
    ∀ rec ∈ p.writes, ∃ j, resolve nodes rec.index = some j ∧
      j < reg.length := by
  unfold phase3Pass at h
  cases hra : p.reads.foldlM (fun acc rec => bumpRead nodes acc k rec) reg with
  | none => rw [hra] at h; exact Option.noConfusion h
  | some reg1 =>
    rw [hra] at h
    intro rec hrec
    obtain ⟨j, hres, hlt⟩ := foldWrites_inrange nodes k p.writes reg1 reg' h
      rec hrec
    exact ⟨j, hres, by rwa [foldReads_length nodes k p.reads reg reg1 hra]
      at hlt⟩

/-- Phase 3 sets each pass's `refCount` to its number of writes and changes
nothing else about the pass list. -/
theorem phase3Go_ps (nodes : List ResourceNode) (ps : List PassNode)
    (k : Nat) (reg : List Resource) (ps' : List PassNode)
    (reg' : List Resource) (h : phase3Go nodes ps k reg = some (ps', reg')) :
    ps' = ps.map (fun p => { p with refCount := p.writes.length }) := by
  induction ps generalizing k reg ps' reg' with
  | nil =>
    obtain ⟨h1, -⟩ : ([] : List PassNode) = ps' ∧ reg = reg' := by
      simpa only [phase3Go, Option.some.injEq, Prod.mk.injEq] using h
    rw [← h1]
    rfl
  | cons p rest ih =>
    unfold phase3Go at h
    cases hp3 : phase3Pass nodes k p reg with
    | none => rw [hp3] at h; exact Option.noConfusion h
    | some reg1 =>
      rw [hp3] at h
      simp only at h
      cases hgo : phase3Go nodes rest (k + 1) reg1 with
      | none => rw [hgo] at h; exact Option.noConfusion h
      | some t =>
        obtain ⟨ps2, reg2⟩ := t
        rw [hgo] at h
        obtain ⟨h1, -⟩ :
            { p with refCount := p.writes.length } :: ps2 = ps' ∧
              reg2 = reg' := by
          simpa only [Option.some.injEq, Prod.mk.injEq] using h
        rw [← h1, ih (k + 1) reg1 ps2 reg2 hgo]
        rfl

/-- Phase 3 preserves the registry length. -/
theorem phase3Go_length (nodes : List ResourceNode) (ps : List PassNode)
    (k : Nat) (reg : List Resource) (ps' : List PassNode)
    (reg' : List Resource) (h : phase3Go nodes ps k reg = some (ps', reg')) :
    reg'.length = reg.length := by
  induction ps generalizing k reg ps' reg' with
  | nil =>
    obtain ⟨-, h2⟩ : ([] : List PassNode) = ps' ∧ reg = reg' := by
      simpa only [phase3Go, Option.some.injEq, Prod.mk.injEq] using h
    rw [← h2]
  | cons p rest ih =>
    unfold phase3Go at h
    cases hp3 : phase3Pass nodes k p reg with
    | none => rw [hp3] at h; exact Option.noConfusion h
    | some reg1 =>
      rw [hp3] at h
      simp only at h
      cases hgo : phase3Go nodes rest (k + 1) reg1 with
      | none => rw [hgo] at h; exact Option.noConfusion h
      | some t =>
        obtain ⟨ps2, reg2⟩ := t
        rw [hgo] at h
        obtain ⟨-, h2⟩ :
            { p with refCount := p.writes.length } :: ps2 = ps' ∧
              reg2 = reg' := by
          simpa only [Option.some.injEq, Prod.mk.injEq] using h
        rw [← h2, ih (k + 1) reg1 ps2 reg2 hgo,
            phase3Pass_length nodes k p reg reg1 hp3]

/-- Pointwise effect of phase 3 on the registry: reader and writer counts
grow by the number of resolving records, and the `writer` field either is
untouched (no write resolves to the entry) or names a pass, at offset `k`,
with a write record resolving to the entry. -/
theorem phase3Go_spec (nodes : List ResourceNode) (ps : List PassNode)
    (k : Nat) (reg : List Resource) (ps' : List PassNode)
    (reg' : List Resource) (h : phase3Go nodes ps k reg = some (ps', reg')) :
    ∀ (i : Nat) (r0 : Resource), reg[i]? = some r0 →
      ∃ r1, reg'[i]? = some r1 ∧
        r1.readerCount = r0.readerCount + countReads nodes ps i ∧
        r1.writerCount = r0.writerCount + countWrites nodes ps i ∧
        ((countWrites nodes ps i = 0 ∧ r1.writer = r0.writer) ∨
         (∃ q pq, ps[q]? = some pq ∧
           countResolve nodes pq.writes i ≠ 0 ∧
           r1.writer = some (k + q))) := by
  induction ps generalizing k reg ps' reg' with
  | nil =>
    intro i r0 hr0
    obtain ⟨-, h2⟩ : ([] : List PassNode) = ps' ∧ reg = reg' := by
      simpa only [phase3Go, Option.some.injEq, Prod.mk.injEq] using h
    rw [← h2]
    exact ⟨r0, hr0, by simp [countReads], by simp [countWrites],
      Or.inl ⟨by simp [countWrites], rfl⟩⟩
  | cons p rest ih =>
    intro i r0 hr0
    unfold phase3Go at h
    cases hp3 : phase3Pass nodes k p reg with
    | none => rw [hp3] at h; exact Option.noConfusion h
    | some reg1 =>
      rw [hp3] at h
      simp only at h
      cases hgo : phase3Go nodes rest (k + 1) reg1 with
      | none => rw [hgo] at h; exact Option.noConfusion h
      | some t =>
        obtain ⟨ps2, reg2⟩ := t
        rw [hgo] at h
        obtain ⟨-, h2⟩ :
            { p with refCount := p.writes.length } :: ps2 = ps' ∧
              reg2 = reg' := by
          simpa only [Option.some.injEq, Prod.mk.injEq] using h
        subst h2
        obtain ⟨rm, hrm, hrc, hwc, hw⟩ :=
          phase3Pass_spec nodes k p reg reg1 hp3 i r0 hr0
        obtain ⟨r1, hr1, hrc', hwc', hwd⟩ :=
          ih (k + 1) reg1 ps2 reg2 hgo i rm hrm
        have hcr : countReads nodes (p :: rest) i =
            countResolve nodes p.reads i + countReads nodes rest i := by
          simp [countReads]
        have hcw : countWrites nodes (p :: rest) i =
            countResolve nodes p.writes i + countWrites nodes rest i := by
          simp [countWrites]
        refine ⟨r1, hr1, by rw [hrc', hrc, hcr]; omega,
          by rw [hwc', hwc, hcw]; omega, ?_⟩
        rcases hwd with ⟨hz, hwr⟩ | ⟨q, pq, hq, hcnt, hwr⟩
        · by_cases hcp : countResolve nodes p.writes i = 0
          · refine Or.inl ⟨by rw [hcw]; omega, ?_⟩
            rw [hwr, hw, if_pos hcp]
          · refine Or.inr ⟨0, p, by simp, hcp, ?_⟩
            rw [hwr, hw, if_neg hcp]
            simp
        · refine Or.inr ⟨q + 1, pq, by simpa using hq, hcnt, ?_⟩
          rw [hwr]
          congr 1
          omega

/-- Phase 3 moves the first/last invariant bound from `k` to
`k + ps.length`. -/
theorem phase3Go_FLInv (nodes : List ResourceNode) (ps : List PassNode)
    (k : Nat) (reg : List Resource) (ps' : List PassNode)
    (reg' : List Resource) (h : phase3Go nodes ps k reg = some (ps', reg'))
    (hfl : FLInv reg k) : FLInv reg' (k + ps.length) := by
  induction ps generalizing k reg ps' reg' with
  | nil =>
    obtain ⟨-, h2⟩ : ([] : List PassNode) = ps' ∧ reg = reg' := by
      simpa only [phase3Go, Option.some.injEq, Prod.mk.injEq] using h
    rw [← h2]
    simpa using hfl
  | cons p rest ih =>
    unfold phase3Go at h
    cases hp3 : phase3Pass nodes k p reg with
    | none => rw [hp3] at h; exact Option.noConfusion h
    | some reg1 =>
      rw [hp3] at h
      simp only at h
      cases hgo : phase3Go nodes rest (k + 1) reg1 with
      | none => rw [hgo] at h; exact Option.noConfusion h
      | some t =>
        obtain ⟨ps2, reg2⟩ := t
        rw [hgo] at h
        obtain ⟨-, h2⟩ :
            { p with refCount := p.writes.length } :: ps2 = ps' ∧
              reg2 = reg' := by
          simpa only [Option.some.injEq, Prod.mk.injEq] using h
        subst h2
        have hfl1 : FLInv reg1 (k + 1) :=
          phase3Pass_FLInv nodes k p reg reg1 hp3
            (FLInv_mono reg k (k + 1) (Nat.le_succ k) hfl)
        have := ih (k + 1) reg1 ps2 reg2 hgo hfl1
        refine FLInv_mono reg2 _ _ ?_ this
        simp
        omega

/-- Every write record of every pass processed by a successful phase 3
resolves to an in-range backing position. -/
theorem phase3Go_inrange (nodes : List ResourceNode) (ps : List PassNode)
    (k : Nat) (reg : List Resource) (ps' : List PassNode)
    (reg' : List Resource) (h : phase3Go nodes ps k reg = some (ps', reg')) :
    ∀ q ∈ ps, ∀ rec ∈ q.writes, ∃ j, resolve nodes rec.index = some j ∧
      j < reg.length := by
  induction ps generalizing k reg ps' reg' with
  | nil => intro q hq; cases hq
  | cons p rest ih =>
    intro q hq rec hrec
    unfold phase3Go at h
    cases hp3 : phase3Pass nodes k p reg with
    | none => rw [hp3] at h; exact Option.noConfusion h
    | some reg1 =>
      rw [hp3] at h
      simp only at h
      cases hgo : phase3Go nodes rest (k + 1) reg1 with
      | none => rw [hgo] at h; exact Option.noConfusion h
      | some t =>
        obtain ⟨ps2, reg2⟩ := t
        rw [hgo] at h
        rcases List.mem_cons.mp hq with rfl | hmem
        · exact phase3Pass_inrange nodes k q reg reg1 hp3 rec hrec
        · obtain ⟨j, hres, hlt⟩ := ih (k + 1) reg1 ps2 reg2 hgo q hmem rec hrec
          exact ⟨j, hres,
            by rwa [phase3Pass_length nodes k p reg reg1 hp3] at hlt⟩

/-! ### Phase 1 characterization -/

/-- Phase 1 only appends fresh backing records: if every record already in
the registry has fresh reference-counting state, so does every record after
materialization. -/
theorem phase1_fresh (nodes : List ResourceNode) (reg0 : List Resource)
    (h0 : ∀ (j : Nat) (r : Resource), reg0[j]? = some r → FreshCounts r) :
    ∀ (j : Nat) (r : Resource),
      (phase1Go nodes reg0).2[j]? = some r → FreshCounts r := by
  induction nodes generalizing reg0 with
  | nil => exact h0
  | cons n rest ih =>
    intro j r hj
    have hstep : (phase1Go (n :: rest) reg0).2 =
        (phase1Go rest (reg0 ++ [freshRes n])).2 := by
      rfl
    rw [hstep] at hj
    refine ih (reg0 ++ [freshRes n]) ?_ j r hj
    intro j' r' hj'
    by_cases hlt : j' < reg0.length
    · rw [List.getElem?_append_left hlt] at hj'
      exact h0 j' r' hj'
    · have hj'' : [freshRes n][j' - reg0.length]? = some r' := by
        rwa [List.getElem?_append_right (Nat.le_of_not_lt hlt)] at hj'
      have : j' - reg0.length = 0 := by
        rcases Nat.lt_or_ge (j' - reg0.length) 1 with h1 | h1
        · omega
        · rw [List.getElem?_eq_none (by simpa using h1)] at hj''
          exact Option.noConfusion hj''
      rw [this] at hj''
      have : r' = freshRes n := (Option.some.inj hj'').symm
      subst this
      exact ⟨rfl, rfl, rfl, rfl, rfl⟩

/-! ### Cull characterization -/

/-- `cullReads` only adds to the stack: old entries stay. -/
theorem cullReads_stack_mem (nodes : List ResourceNode)
    (recs : List FrameGraphResource) (reg : List Resource)
    (stack : List Nat) (reg' : List Resource) (stack' : List Nat)
    (h : cullReads nodes reg stack recs = some (reg', stack')) :
    ∀ x ∈ stack, x ∈ stack' := by
  induction recs generalizing reg stack with
  | nil =>
    obtain ⟨-, h2⟩ : reg = reg' ∧ stack = stack' := by
      simpa only [cullReads, Option.some.injEq, Prod.mk.injEq] using h
    subst h2
    exact fun x hx => hx
  | cons rec rest ih =>
    intro x hx
    unfold cullReads at h
    cases hres : resolve nodes rec.index with
    | none => rw [hres] at h; exact Option.noConfusion h
    | some j =>
      rw [hres] at h
      simp only at h
      cases hr : reg[j]? with
      | none => rw [hr] at h; exact Option.noConfusion h
      | some r =>
        rw [hr] at h
        simp only at h
        by_cases hc : dec32 r.readerCount = 0
        · rw [if_pos hc] at h
          exact ih _ _ h x (List.mem_cons_of_mem j hx)
        · rw [if_neg hc] at h
          exact ih _ _ h x hx

/-- `cullReads` touches only `readerCount`s. -/
theorem cullReads_sim (nodes : List ResourceNode)
    (recs : List FrameGraphResource) (reg : List Resource)
    (stack : List Nat) (reg' : List Resource) (stack' : List Nat)
    (h : cullReads nodes reg stack recs = some (reg', stack')) :
    regSim reg reg' := by
  induction recs generalizing reg stack with
  | nil =>
    obtain ⟨h1, -⟩ : reg = reg' ∧ stack = stack' := by
      simpa only [cullReads, Option.some.injEq, Prod.mk.injEq] using h
    subst h1
    intro j
    cases hj : reg[j]? with
    | none => exact ⟨0, rfl⟩
    | some r => exact ⟨r.readerCount, rfl⟩
  | cons rec rest ih =>
    unfold cullReads at h
    cases hres : resolve nodes rec.index with
    | none => rw [hres] at h; exact Option.noConfusion h
    | some j =>
      rw [hres] at h
      simp only at h
      cases hr : reg[j]? with
      | none => rw [hr] at h; exact Option.noConfusion h
      | some r =>
        rw [hr] at h
        simp only at h
        have hmid := ih (reg.set j { r with readerCount := dec32 r.readerCount })
          (if dec32 r.readerCount = 0 then j :: stack else stack) h
        intro i
        obtain ⟨c, hc⟩ := hmid i
        by_cases hij : j = i
        · subst hij
          refine ⟨c, ?_⟩
          rw [hc, List.getElem?_set_self (List.getElem?_eq_some.mp hr).1, hr]
          rfl
        · refine ⟨c, ?_⟩
          rw [hc, List.getElem?_set_ne hij]

/-- When no record resolves into `W`, `cullReads` leaves every `W` entry of
the registry untouched and does not change the number of `W` members on the
stack. -/
theorem cullReads_W (nodes : List ResourceNode) (W : List Nat)
    (recs : List FrameGraphResource) (reg : List Resource)
    (stack : List Nat) (reg' : List Resource) (stack' : List Nat)
    (h : cullReads nodes reg stack recs = some (reg', stack'))
    (hW : ∀ rec ∈ recs, ∀ j ∈ W, resolve nodes rec.index ≠ some j) :
    (∀ j ∈ W, reg'[j]? = reg[j]?) ∧
    stack'.countP (fun j => decide (j ∈ W)) =
      stack.countP (fun j => decide (j ∈ W)) := by
  induction recs generalizing reg stack with
  | nil =>
    obtain ⟨h1, h2⟩ : reg = reg' ∧ stack = stack' := by
      simpa only [cullReads, Option.some.injEq, Prod.mk.injEq] using h
    subst h1
    subst h2
    exact ⟨fun j _ => rfl, rfl⟩
  | cons rec rest ih =>
    unfold cullReads at h
    cases hres : resolve nodes rec.index with
    | none => rw [hres] at h; exact Option.noConfusion h
    | some j =>
      rw [hres] at h
      simp only at h
      cases hr : reg[j]? with
      | none => rw [hr] at h; exact Option.noConfusion h
      | some r =>
        rw [hr] at h
        simp only at h
        have hjW : j ∉ W := fun hj => hW rec (List.mem_cons_self rec rest) j hj hres
        have hWrest : ∀ rec' ∈ rest, ∀ j' ∈ W, resolve nodes rec'.index ≠ some j' :=
          fun rec' hr' => hW rec' (List.mem_cons_of_mem rec hr')
        by_cases hc : dec32 r.readerCount = 0
        · rw [if_pos hc] at h
          obtain ⟨hreg, hstk⟩ := ih _ _ h hWrest
          constructor
          · intro j' hj'
            rw [hreg j' hj',
                List.getElem?_set_ne (fun he => hjW (by rw [he]; exact hj'))]
          · rw [hstk, List.countP_cons]
            simp [hjW]
        · rw [if_neg hc] at h
          obtain ⟨hreg, hstk⟩ := ih _ _ h hWrest
          constructor
          · intro j' hj'
            rw [hreg j' hj',
                List.getElem?_set_ne (fun he => hjW (by rw [he]; exact hj'))]
          · exact hstk

/-- `regSim` is reflexive. -/
theorem regSim_refl (a : List Resource) : regSim a a := by
  intro j
  cases hj : a[j]? with
  | none => exact ⟨0, rfl⟩
  | some r => exact ⟨r.readerCount, rfl⟩

/-- `regSim` is transitive. -/
theorem regSim_trans (a b c : List Resource) (h1 : regSim a b)
    (h2 : regSim b c) : regSim a c := by
  intro j
  obtain ⟨c1, hc1⟩ := h1 j
  obtain ⟨c2, hc2⟩ := h2 j
  refine ⟨c2, ?_⟩
  rw [hc2, hc1]
  cases a[j]? <;> rfl

/-- Setting one entry's `readerCount` is a `regSim` step. -/
theorem regSim_set_reader (reg : List Resource) (j : Nat) (r : Resource)
    (c : Nat) (hr : reg[j]? = some r) :
    regSim reg (reg.set j { r with readerCount := c }) := by
  intro i
  by_cases hij : j = i
  · subst hij
    refine ⟨c, ?_⟩
    rw [List.getElem?_set_self (List.getElem?_eq_some.mp hr).1, hr]
    rfl
  · obtain ⟨c0, hc0⟩ := regSim_refl reg i
    refine ⟨c0, ?_⟩
    rw [List.getElem?_set_ne hij]
    exact hc0

/-- `passSim` is reflexive. -/
theorem passSim_refl (a : List PassNode) : passSim a a := by
  intro i
  cases hi : a[i]? with
  | none => exact ⟨0, rfl⟩
  | some p => exact ⟨p.refCount, rfl⟩

/-- `passSim` is transitive. -/
theorem passSim_trans (a b c : List PassNode) (h1 : passSim a b)
    (h2 : passSim b c) : passSim a c := by
  intro i
  obtain ⟨c1, hc1⟩ := h1 i
  obtain ⟨c2, hc2⟩ := h2 i
  refine ⟨c2, ?_⟩
  rw [hc2, hc1]
  cases a[i]? <;> rfl

/-- Setting one pass's `refCount` is a `passSim` step. -/
theorem passSim_set_ref (ps : List PassNode) (w : Nat) (p : PassNode)
    (c : Nat) (hp : ps[w]? = some p) :
    passSim ps (ps.set w { p with refCount := c }) := by
  intro i
  by_cases hwi : w = i
  · subst hwi
    refine ⟨c, ?_⟩
    rw [List.getElem?_set_self (List.getElem?_eq_some.mp hp).1, hp]
    rfl
  · obtain ⟨c0, hc0⟩ := passSim_refl ps i
    refine ⟨c0, ?_⟩
    rw [List.getElem?_set_ne hwi]
    exact hc0

/-- The cull loop only changes `readerCount`s in the registry and
`refCount`s in the pass list. -/
theorem cullLoop_sim (nodes : List ResourceNode) (fuel : Nat)
    (ps : List PassNode) (reg : List Resource) (stack : List Nat)
    (ps' : List PassNode) (reg' : List Resource)
    (h : cullLoop nodes fuel ps reg stack = some (ps', reg')) :
    passSim ps ps' ∧ regSim reg reg' := by
  induction fuel generalizing ps reg stack with
  | zero =>
    cases stack with
    | nil =>
      obtain ⟨h1, h2⟩ : ps = ps' ∧ reg = reg' := by
        simpa only [cullLoop, Option.some.injEq, Prod.mk.injEq] using h
      subst h1; subst h2
      exact ⟨passSim_refl ps, regSim_refl reg⟩
    | cons i rest => exact Option.noConfusion h
  | succ fuel ih =>
    cases stack with
    | nil =>
      obtain ⟨h1, h2⟩ : ps = ps' ∧ reg = reg' := by
        simpa only [cullLoop, Option.some.injEq, Prod.mk.injEq] using h
      subst h1; subst h2
      exact ⟨passSim_refl ps, regSim_refl reg⟩
    | cons i rest =>
      unfold cullLoop at h
      cases hri : reg[i]? with
      | none => rw [hri] at h; exact Option.noConfusion h
      | some r =>
        rw [hri] at h
        simp only at h
        by_cases hwc : r.writerCount > 1
        · rw [if_pos hwc] at h; exact Option.noConfusion h
        · rw [if_neg hwc] at h
          cases hwr : r.writer with
          | none => rw [hwr] at h; exact ih ps reg rest h
          | some w =>
            rw [hwr] at h
            simp only at h
            cases hpw : ps[w]? with
            | none => rw [hpw] at h; exact Option.noConfusion h
            | some wp =>
              rw [hpw] at h
              simp only at h
              by_cases hrc : wp.refCount = 0
              · rw [if_pos hrc] at h; exact Option.noConfusion h
              · rw [if_neg hrc] at h
                by_cases hz : wp.refCount - 1 = 0
                · rw [if_pos hz] at h
                  cases hcr : cullReads nodes reg rest wp.reads with
                  | none => rw [hcr] at h; exact Option.noConfusion h
                  | some t =>
                    obtain ⟨reg1, stack1⟩ := t
                    rw [hcr] at h
                    simp only at h
                    obtain ⟨hps, hreg⟩ := ih _ reg1 stack1 h
                    exact ⟨passSim_trans _ _ _
                        (passSim_set_ref ps w wp (wp.refCount - 1) hpw) hps,
                      regSim_trans _ _ _
                        (cullReads_sim nodes wp.reads reg rest reg1 stack1 hcr)
                        hreg⟩
                · rw [if_neg hz] at h
                  obtain ⟨hps, hreg⟩ := ih _ reg rest h
                  exact ⟨passSim_trans _ _ _
                      (passSim_set_ref ps w wp (wp.refCount - 1) hpw) hps,
                    hreg⟩

/-- Every resource on the stack of a successful cull loop satisfies the
`writerCount ≤ 1` assertion (it is eventually popped and checked, and
culling never changes `writerCount`s). -/
theorem cullLoop_pops (nodes : List ResourceNode) (fuel : Nat)
    (ps : List PassNode) (reg : List Resource) (stack : List Nat)
    (ps' : List PassNode) (reg' : List Resource)
    (h : cullLoop nodes fuel ps reg stack = some (ps', reg')) :
    ∀ j ∈ stack, ∀ r, reg[j]? = some r → r.writerCount ≤ 1 := by
  induction fuel generalizing ps reg stack with
  | zero =>
    cases stack with
    | nil => intro j hj; cases hj
    | cons i rest => exact Option.noConfusion h
  | succ fuel ih =>
    cases stack with
    | nil => intro j hj; cases hj
    | cons i rest =>
      intro j hj r hr
      unfold cullLoop at h
      cases hri : reg[i]? with
      | none => rw [hri] at h; exact Option.noConfusion h
      | some ri =>
        rw [hri] at h
        simp only at h
        by_cases hwc : ri.writerCount > 1
        · rw [if_pos hwc] at h; exact Option.noConfusion h
        · rw [if_neg hwc] at h
          rcases List.mem_cons.mp hj with rfl | hmem
          · have : ri = r := by rw [hri] at hr; exact Option.some.inj hr
            subst this
            omega
          · cases hwr : ri.writer with
            | none =>
              rw [hwr] at h
              exact ih ps reg rest h j hmem r hr
            | some w =>
              rw [hwr] at h
              simp only at h
              cases hpw : ps[w]? with
              | none => rw [hpw] at h; exact Option.noConfusion h
              | some wp =>
                rw [hpw] at h
                simp only at h
                by_cases hrc : wp.refCount = 0
                · rw [if_pos hrc] at h; exact Option.noConfusion h
                · rw [if_neg hrc] at h
                  by_cases hz : wp.refCount - 1 = 0
                  · rw [if_pos hz] at h
                    cases hcr : cullReads nodes reg rest wp.reads with
                    | none => rw [hcr] at h; exact Option.noConfusion h
                    | some t =>
                      obtain ⟨reg1, stack1⟩ := t
                      rw [hcr] at h
                      simp only at h
                      obtain ⟨c, hc⟩ :=
                        cullReads_sim nodes wp.reads reg rest reg1 stack1 hcr j
                      rw [hr] at hc
                      have hmem1 : j ∈ stack1 :=
                        cullReads_stack_mem nodes wp.reads reg rest reg1 stack1
                          hcr j hmem
                      have := ih _ reg1 stack1 h j hmem1 _ hc
                      simpa using this
                  · rw [if_neg hz] at h
                    exact ih _ reg rest h j hmem r hr

/-- The cull fixed point for a pass `p` whose written backing resources
nobody reads.  If no read record of any pass resolves into `W`, every `W`
entry is reader-free with `p` as its writer, `p` is the writer of no entry
outside `W`, and `p`'s refCount equals the number of `W` members on the
stack, then a successful cull loop drives `p`'s refCount to zero and leaves
every `W` entry of the registry untouched. -/
theorem cullLoop_main (nodes : List ResourceNode) (W : List Nat) (p : Nat)
    (fuel : Nat) :
    ∀ (ps : List PassNode) (reg : List Resource) (stack : List Nat)
      (ps' : List PassNode) (reg' : List Resource),
    cullLoop nodes fuel ps reg stack = some (ps', reg') →
    (∀ q ∈ ps, ∀ rec ∈ q.reads, ∀ j ∈ W, resolve nodes rec.index ≠ some j) →
    (∀ j ∈ W, ∀ r, reg[j]? = some r → r.readerCount = 0 ∧
      r.writer = some p) →
    (∀ (j : Nat) (r : Resource), reg[j]? = some r → r.writer = some p →
      j ∈ W) →
    (∀ q, ps[p]? = some q →
      q.refCount = stack.countP (fun j => decide (j ∈ W))) →
    (∀ q', ps'[p]? = some q' → q'.refCount = 0) ∧
    (∀ j ∈ W, reg'[j]? = reg[j]?) := by
  induction fuel with
  | zero =>
    intro ps reg stack ps' reg' h hreads hw1 hw2 hp
    cases stack with
    | nil =>
      obtain ⟨h1, h2⟩ : ps = ps' ∧ reg = reg' := by
        simpa only [cullLoop, Option.some.injEq, Prod.mk.injEq] using h
      subst h1; subst h2
      exact ⟨fun q' hq' => by simpa using hp q' hq', fun j _ => rfl⟩
    | cons i rest => exact Option.noConfusion h
  | succ fuel ih =>
    intro ps reg stack ps' reg' h hreads hw1 hw2 hp
    cases stack with
    | nil =>
      obtain ⟨h1, h2⟩ : ps = ps' ∧ reg = reg' := by
        simpa only [cullLoop, Option.some.injEq, Prod.mk.injEq] using h
      subst h1; subst h2
      exact ⟨fun q' hq' => by simpa using hp q' hq', fun j _ => rfl⟩
    | cons i rest =>
      unfold cullLoop at h
      cases hri : reg[i]? with
      | none => rw [hri] at h; exact Option.noConfusion h
      | some r =>
        rw [hri] at h
        simp only at h
        by_cases hwc : r.writerCount > 1
        · rw [if_pos hwc] at h; exact Option.noConfusion h
        · rw [if_neg hwc] at h
          cases hwr : r.writer with
          | none =>
            rw [hwr] at h
            have hiW : i ∉ W := by
              intro hiW
              have := (hw1 i hiW r hri).2
              rw [hwr] at this
              exact Option.noConfusion this
            refine ih ps reg rest ps' reg' h hreads hw1 hw2 ?_
            intro q hq
            rw [hp q hq, List.countP_cons]
            simp [hiW]
          | some w =>
            rw [hwr] at h
            simp only at h
            cases hpw : ps[w]? with
            | none => rw [hpw] at h; exact Option.noConfusion h
            | some wp =>
              rw [hpw] at h
              simp only at h
              by_cases hrc : wp.refCount = 0
              · rw [if_pos hrc] at h; exact Option.noConfusion h
              · rw [if_neg hrc] at h
                have hwplt : w < ps.length := (List.getElem?_eq_some.mp hpw).1
                have hwpmem : wp ∈ ps := List.getElem?_mem hpw
                have hreads1 : ∀ q ∈ ps.set w
                    { wp with refCount := wp.refCount - 1 },
                    ∀ rec ∈ q.reads, ∀ j ∈ W,
                    resolve nodes rec.index ≠ some j := by
                  intro q hq
                  rcases List.mem_or_eq_of_mem_set hq with hq' | rfl
                  · exact hreads q hq'
                  · exact hreads wp hwpmem
                by_cases hiW : i ∈ W
                · have hwp : w = p := by
                    have := (hw1 i hiW r hri).2
                    rw [hwr] at this
                    exact Option.some.inj this
                  subst hwp
                  have hrcv : wp.refCount =
                      rest.countP (fun j => decide (j ∈ W)) + 1 := by
                    rw [hp wp hpw, List.countP_cons]
                    simp [hiW]
                  by_cases hz : wp.refCount - 1 = 0
                  · rw [if_pos hz] at h
                    cases hcr : cullReads nodes reg rest wp.reads with
                    | none => rw [hcr] at h; exact Option.noConfusion h
                    | some t =>
                      obtain ⟨reg1, stack1⟩ := t
                      rw [hcr] at h
                      simp only at h
                      obtain ⟨hregW, hstkW⟩ := cullReads_W nodes W wp.reads
                        reg rest reg1 stack1 hcr
                        (fun rec hrec => hreads wp hwpmem rec hrec)
                      have hsim := cullReads_sim nodes wp.reads reg rest
                        reg1 stack1 hcr
                      obtain ⟨hend, hWend⟩ := ih
                        (ps.set w { wp with refCount := wp.refCount - 1 })
                        reg1 stack1 ps' reg' h hreads1
                        (fun j hj r' hr' => hw1 j hj r' (by
                          rw [← hregW j hj]; exact hr'))
                        (fun j r' hr' hwr' => by
                          obtain ⟨c, hc⟩ := hsim j
                          rw [hr'] at hc
                          cases hr0 : reg[j]? with
                          | none => rw [hr0] at hc; exact Option.noConfusion hc
                          | some r0 =>
                            rw [hr0] at hc
                            have : r' = { r0 with readerCount := c } :=
                              Option.some.inj hc
                            refine hw2 j r0 hr0 ?_
                            rw [← hwr', this])
                        (fun q hq => by
                          rw [List.getElem?_set_self hwplt] at hq
                          have : q = { wp with refCount := wp.refCount - 1 } :=
                            (Option.some.inj hq).symm
                          rw [this, hstkW]
                          simp
                          omega)
                      refine ⟨hend, ?_⟩
                      intro j hj
                      rw [hWend j hj, hregW j hj]
                  · rw [if_neg hz] at h
                    refine ih (ps.set w { wp with refCount := wp.refCount - 1 })
                      reg rest ps' reg' h hreads1 hw1 hw2 ?_
                    intro q hq
                    rw [List.getElem?_set_self hwplt] at hq
                    have : q = { wp with refCount := wp.refCount - 1 } :=
                      (Option.some.inj hq).symm
                    rw [this]
                    simp
                    omega
                · have hwnp : w ≠ p := by
                    intro he
                    exact hiW (hw2 i r hri (by rw [hwr, he]))
                  have hcnt : (i :: rest).countP (fun j => decide (j ∈ W)) =
                      rest.countP (fun j => decide (j ∈ W)) := by
                    rw [List.countP_cons]
                    simp [hiW]
                  have hp1 : ∀ q, (ps.set w
                      { wp with refCount := wp.refCount - 1 })[p]? = some q →
                      q.refCount = rest.countP (fun j => decide (j ∈ W)) := by
                    intro q hq
                    rw [List.getElem?_set_ne hwnp] at hq
                    rw [hp q hq, ← hcnt]
                  by_cases hz : wp.refCount - 1 = 0
                  · rw [if_pos hz] at h
                    cases hcr : cullReads nodes reg rest wp.reads with
                    | none => rw [hcr] at h; exact Option.noConfusion h
                    | some t =>
                      obtain ⟨reg1, stack1⟩ := t
                      rw [hcr] at h
                      simp only at h
                      obtain ⟨hregW, hstkW⟩ := cullReads_W nodes W wp.reads
                        reg rest reg1 stack1 hcr
                        (fun rec hrec => hreads wp hwpmem rec hrec)
                      have hsim := cullReads_sim nodes wp.reads reg rest
                        reg1 stack1 hcr
                      obtain ⟨hend, hWend⟩ := ih
                        (ps.set w { wp with refCount := wp.refCount - 1 })
                        reg1 stack1 ps' reg' h hreads1
                        (fun j hj r' hr' => hw1 j hj r' (by
                          rw [← hregW j hj]; exact hr'))
                        (fun j r' hr' hwr' => by
                          obtain ⟨c, hc⟩ := hsim j
                          rw [hr'] at hc
                          cases hr0 : reg[j]? with
                          | none => rw [hr0] at hc; exact Option.noConfusion hc
                          | some r0 =>
                            rw [hr0] at hc
                            have : r' = { r0 with readerCount := c } :=
                              Option.some.inj hc
                            refine hw2 j r0 hr0 ?_
                            rw [← hwr', this])
                        (fun q hq => by rw [hp1 q hq, hstkW])
                      refine ⟨hend, ?_⟩
                      intro j hj
                      rw [hWend j hj, hregW j hj]
                  · rw [if_neg hz] at h
                    exact ih (ps.set w { wp with refCount := wp.refCount - 1 })
                      reg rest ps' reg' h hreads1 hw1 hw2 hp1

/-! ### Phase 5 characterization -/

/-- Access through `modAt`. -/
theorem modAt_getElem (l : List α) (f : Nat) (g : α → α) (k : Nat) :
    (modAt l f g)[k]? = if k = f then (l[k]?).map g else l[k]? := by
  unfold modAt
  cases hf : l[f]? with
  | none =>
    by_cases hkf : k = f
    · subst hkf
      rw [if_pos rfl, hf]
      rfl
    · rw [if_neg hkf]
  | some a =>
    by_cases hkf : k = f
    · subst hkf
      rw [if_pos rfl, List.getElem?_set_self (List.getElem?_eq_some.mp hf).1,
          hf]
      rfl
    · rw [if_neg hkf, List.getElem?_set_ne (fun he => hkf he.symm)]

/-- `modAt` preserves length. -/
theorem modAt_length (l : List α) (f : Nat) (g : α → α) :
    (modAt l f g).length = l.length := by
  unfold modAt
  cases l[f]? with
  | none => rfl
  | some a => exact List.length_set l f (g a)

/-- `passApp` is reflexive. -/
theorem passApp_refl (a : List PassNode) : passApp a a := by
  intro k
  refine ⟨[], [], ?_⟩
  cases a[k]? with
  | none => rfl
  | some q => simp

/-- `passApp` is transitive. -/
theorem passApp_trans (a b c : List PassNode) (h1 : passApp a b)
    (h2 : passApp b c) : passApp a c := by
  intro k
  obtain ⟨dv1, ds1, hd1⟩ := h1 k
  obtain ⟨dv2, ds2, hd2⟩ := h2 k
  refine ⟨dv1 ++ dv2, ds1 ++ ds2, ?_⟩
  rw [hd2, hd1]
  cases a[k]? with
  | none => rfl
  | some q => simp

/-- Appending to one pass's `devirtualize` list is a `passApp` step. -/
theorem passApp_modAt_dv (ps : List PassNode) (f : Nat) (i : Nat) :
    passApp ps (modAt ps f (fun p =>
      { p with devirtualize := p.devirtualize ++ [i] })) := by
  intro k
  rw [modAt_getElem]
  by_cases hkf : k = f
  · rw [if_pos hkf]
    refine ⟨[i], [], ?_⟩
    cases ps[k]? with
    | none => rfl
    | some q => simp
  · rw [if_neg hkf]
    exact passApp_refl ps k

/-- Appending to one pass's `destroy` list is a `passApp` step. -/
theorem passApp_modAt_ds (ps : List PassNode) (l : Nat) (i : Nat) :
    passApp ps (modAt ps l (fun p =>
      { p with destroy := p.destroy ++ [i] })) := by
  intro k
  rw [modAt_getElem]
  by_cases hkl : k = l
  · rw [if_pos hkl]
    refine ⟨[], [i], ?_⟩
    cases ps[k]? with
    | none => rfl
    | some q => simp
  · rw [if_neg hkl]
    exact passApp_refl ps k

/-- Phase 5 only appends to `devirtualize` and `destroy` lists. -/
theorem phase5Go_app (rest : List Resource) (i : Nat) (ps ps' : List PassNode)
    (h : phase5Go rest i ps = some ps') : passApp ps ps' := by
  induction rest generalizing i ps with
  | nil =>
    have : ps = ps' := by simpa only [phase5Go, Option.some.injEq] using h
    subst this
    exact passApp_refl ps
  | cons r rest ih =>
    unfold phase5Go at h
    split at h
    · exact Option.noConfusion h
    · cases hf : r.first with
      | none =>
        rw [hf] at h
        simp only at h
        exact ih (i + 1) ps h
      | some f =>
        rw [hf] at h
        cases hl : r.last with
        | none =>
          rw [hl] at h
          simp only at h
          exact ih (i + 1) ps h
        | some l =>
          rw [hl] at h
          simp only at h
          by_cases hrc : r.readerCount = 0
          · rw [if_pos hrc] at h
            exact ih (i + 1) ps h
          · rw [if_neg hrc] at h
            refine passApp_trans _ _ _ ?_ (ih (i + 1) _ h)
            exact passApp_trans _ _ _ (passApp_modAt_dv ps f i)
              (passApp_modAt_ds _ l i)

/-- Everything phase 5 put on a `devirtualize` list comes from a registry
entry that survived culling (`readerCount ≠ 0`) whose `first` is that
pass. -/
theorem phase5Go_devirt_src (rest : List Resource) (i : Nat)
    (ps ps' : List PassNode) (h : phase5Go rest i ps = some ps') :
    ∀ (k : Nat) (q' : PassNode), ps'[k]? = some q' →
      ∀ j ∈ q'.devirtualize,
        (∃ q0, ps[k]? = some q0 ∧ j ∈ q0.devirtualize) ∨
        (∃ m r, rest[m]? = some r ∧ j = i + m ∧ r.readerCount ≠ 0 ∧
          r.first = some k) := by
  induction rest generalizing i ps with
  | nil =>
    have : ps = ps' := by simpa only [phase5Go, Option.some.injEq] using h
    subst this
    intro k q' hq' j hj
    exact Or.inl ⟨q', hq', hj⟩
  | cons r rest ih =>
    intro k q' hq' j hj
    unfold phase5Go at h
    split at h
    · exact Option.noConfusion h
    · cases hf : r.first with
      | none =>
        rw [hf] at h
        simp only at h
        rcases ih (i + 1) ps h k q' hq' j hj with hl | ⟨m, r', hm, hjm, hrc', hf'⟩
        · exact Or.inl hl
        · exact Or.inr ⟨m + 1, r', by simpa using hm, by omega, hrc', hf'⟩
      | some f =>
        rw [hf] at h
        cases hl : r.last with
        | none =>
          rw [hl] at h
          simp only at h
          rcases ih (i + 1) ps h k q' hq' j hj with hle | ⟨m, r', hm, hjm, hrc', hf'⟩
          · exact Or.inl hle
          · exact Or.inr ⟨m + 1, r', by simpa using hm, by omega, hrc', hf'⟩
        | some l =>
          rw [hl] at h
          simp only at h
          by_cases hrc : r.readerCount = 0
          · rw [if_pos hrc] at h
            rcases ih (i + 1) ps h k q' hq' j hj with hle | ⟨m, r', hm, hjm, hrc', hf'⟩
            · exact Or.inl hle
            · exact Or.inr ⟨m + 1, r', by simpa using hm, by omega, hrc', hf'⟩
          · rw [if_neg hrc] at h
            rcases ih (i + 1) _ h k q' hq' j hj with ⟨q2, hq2, hj2⟩ |
                ⟨m, r', hm, hjm, hrc', hf'⟩
            · rw [modAt_getElem] at hq2
              by_cases hkl : k = l
              · rw [if_pos hkl] at hq2
                cases hq1 : (modAt ps f (fun p =>
                    { p with devirtualize := p.devirtualize ++ [i] }))[k]? with
                | none => rw [hq1] at hq2; exact Option.noConfusion hq2
                | some q1 =>
                  rw [hq1] at hq2
                  have hq2' : q2 = { q1 with destroy := q1.destroy ++ [i] } :=
                    (Option.some.inj hq2).symm
                  rw [modAt_getElem] at hq1
                  by_cases hkf : k = f
                  · rw [if_pos hkf] at hq1
                    cases hq0 : ps[k]? with
                    | none => rw [hq0] at hq1; exact Option.noConfusion hq1
                    | some q0 =>
                      rw [hq0] at hq1
                      have hq1' : q1 = { q0 with
                          devirtualize := q0.devirtualize ++ [i] } :=
                        (Option.some.inj hq1).symm
                      have : j ∈ q0.devirtualize ++ [i] := by
                        rw [hq2', hq1'] at hj2
                        simpa using hj2
                      rcases List.mem_append.mp this with hin | hin
                      · exact Or.inl ⟨q0, rfl, hin⟩
                      · have : j = i := by simpa using hin
                        exact Or.inr ⟨0, r, by simp, by omega, hrc,
                          by rw [hf, hkf]⟩
                  · rw [if_neg hkf] at hq1
                    have : j ∈ q1.devirtualize := by
                      rw [hq2'] at hj2
                      simpa using hj2
                    exact Or.inl ⟨q1, hq1, this⟩
              · rw [if_neg hkl] at hq2
                rw [modAt_getElem] at hq2
                by_cases hkf : k = f
                · rw [if_pos hkf] at hq2
                  cases hq0 : ps[k]? with
                  | none => rw [hq0] at hq2; exact Option.noConfusion hq2
                  | some q0 =>
                    rw [hq0] at hq2
                    have hq2' : q2 = { q0 with
                        devirtualize := q0.devirtualize ++ [i] } :=
                      (Option.some.inj hq2).symm
                    have : j ∈ q0.devirtualize ++ [i] := by
                      rw [hq2'] at hj2
                      simpa using hj2
                    rcases List.mem_append.mp this with hin | hin
                    · exact Or.inl ⟨q0, rfl, hin⟩
                    · have : j = i := by simpa using hin
                      exact Or.inr ⟨0, r, by simp, by omega, hrc,
                        by rw [hf, hkf]⟩
                · rw [if_neg hkf] at hq2
                  exact Or.inl ⟨q2, hq2, hj2⟩
            · exact Or.inr ⟨m + 1, r', by simpa using hm, by omega, hrc', hf'⟩

/-- Everything phase 5 put on a `destroy` list comes from a registry entry
that survived culling whose `last` is that pass. -/
theorem phase5Go_destroy_src (rest : List Resource) (i : Nat)
    (ps ps' : List PassNode) (h : phase5Go rest i ps = some ps') :
    ∀ (k : Nat) (q' : PassNode), ps'[k]? = some q' →
      ∀ j ∈ q'.destroy,
        (∃ q0, ps[k]? = some q0 ∧ j ∈ q0.destroy) ∨
        (∃ m r, rest[m]? = some r ∧ j = i + m ∧ r.readerCount ≠ 0 ∧
          r.last = some k) := by
  induction rest generalizing i ps with
  | nil =>
    have : ps = ps' := by simpa only [phase5Go, Option.some.injEq] using h
    subst this
    intro k q' hq' j hj
    exact Or.inl ⟨q', hq', hj⟩
  | cons r rest ih =>
    intro k q' hq' j hj
    unfold phase5Go at h
    split at h
    · exact Option.noConfusion h
    · cases hf : r.first with
      | none =>
        rw [hf] at h
        simp only at h
        rcases ih (i + 1) ps h k q' hq' j hj with hl | ⟨m, r', hm, hjm, hrc', hl'⟩
        · exact Or.inl hl
        · exact Or.inr ⟨m + 1, r', by simpa using hm, by omega, hrc', hl'⟩
      | some f =>
        rw [hf] at h
        cases hl : r.last with
        | none =>
          rw [hl] at h
          simp only at h
          rcases ih (i + 1) ps h k q' hq' j hj with hle | ⟨m, r', hm, hjm, hrc', hl'⟩
          · exact Or.inl hle
          · exact Or.inr ⟨m + 1, r', by simpa using hm, by omega, hrc', hl'⟩
        | some l =>
          rw [hl] at h
          simp only at h
          by_cases hrc : r.readerCount = 0
          · rw [if_pos hrc] at h
            rcases ih (i + 1) ps h k q' hq' j hj with hle | ⟨m, r', hm, hjm, hrc', hl'⟩
            · exact Or.inl hle
            · exact Or.inr ⟨m + 1, r', by simpa using hm, by omega, hrc', hl'⟩
          · rw [if_neg hrc] at h
            rcases ih (i + 1) _ h k q' hq' j hj with ⟨q2, hq2, hj2⟩ |
                ⟨m, r', hm, hjm, hrc', hl'⟩
            · rw [modAt_getElem] at hq2
              by_cases hkl : k = l
              · rw [if_pos hkl] at hq2
                cases hq1 : (modAt ps f (fun p =>
                    { p with devirtualize := p.devirtualize ++ [i] }))[k]? with
                | none => rw [hq1] at hq2; exact Option.noConfusion hq2
                | some q1 =>
                  rw [hq1] at hq2
                  have hq2' : q2 = { q1 with destroy := q1.destroy ++ [i] } :=
                    (Option.some.inj hq2).symm
                  have hjq1 : j ∈ q1.destroy ++ [i] := by
                    rw [hq2'] at hj2
                    simpa using hj2
                  rcases List.mem_append.mp hjq1 with hin | hin
                  · rw [modAt_getElem] at hq1
                    by_cases hkf : k = f
                    · rw [if_pos hkf] at hq1
                      cases hq0 : ps[k]? with
                      | none => rw [hq0] at hq1; exact Option.noConfusion hq1
                      | some q0 =>
                        rw [hq0] at hq1
                        have hq1' : q1 = { q0 with
                            devirtualize := q0.devirtualize ++ [i] } :=
                          (Option.some.inj hq1).symm
                        refine Or.inl ⟨q0, rfl, ?_⟩
                        rw [hq1'] at hin
                        simpa using hin
                    · rw [if_neg hkf] at hq1
                      exact Or.inl ⟨q1, hq1, hin⟩
                  · have : j = i := by simpa using hin
                    exact Or.inr ⟨0, r, by simp, by omega, hrc,
                      by rw [hl, hkl]⟩
              · rw [if_neg hkl] at hq2
                rw [modAt_getElem] at hq2
                by_cases hkf : k = f
                · rw [if_pos hkf] at hq2
                  cases hq0 : ps[k]? with
                  | none => rw [hq0] at hq2; exact Option.noConfusion hq2
                  | some q0 =>
                    rw [hq0] at hq2
                    have hq2' : q2 = { q0 with
                        devirtualize := q0.devirtualize ++ [i] } :=
                      (Option.some.inj hq2).symm
                    refine Or.inl ⟨q0, rfl, ?_⟩
                    rw [hq2'] at hj2
                    simpa using hj2
                · rw [if_neg hkf] at hq2
                  exact Or.inl ⟨q2, hq2, hj2⟩
            · exact Or.inr ⟨m + 1, r', by simpa using hm, by omega, hrc', hl'⟩

/-- Phase 5 attaches every surviving resource with both lifetime ends to
its first user's `devirtualize` list and its last user's `destroy` list. -/
theorem phase5Go_attach (rest : List Resource) (i : Nat)
    (ps ps' : List PassNode) (h : phase5Go rest i ps = some ps') :
    ∀ (m : Nat) (r : Resource), rest[m]? = some r → r.readerCount ≠ 0 →
      ∀ f l, r.first = some f → r.last = some l →
      f < ps.length → l < ps.length →
      (∃ qf, ps'[f]? = some qf ∧ (i + m) ∈ qf.devirtualize) ∧
      (∃ ql, ps'[l]? = some ql ∧ (i + m) ∈ ql.destroy) := by
  induction rest generalizing i ps with
  | nil =>
    intro m r hm
    rw [List.getElem?_eq_none (by simp)] at hm
    exact Option.noConfusion hm
  | cons r0 rest ih =>
    intro m r hm hrc f l hf hl hfb hlb
    unfold phase5Go at h
    split at h
    · exact Option.noConfusion h
    · cases m with
      | zero =>
        have hr0 : r0 = r := by simpa using hm
        subst hr0
        rw [hf, hl] at h
        simp only at h
        rw [if_neg hrc] at h
        have happ := phase5Go_app rest (i + 1) _ ps' h
        have hps1f : (modAt ps f (fun p =>
            { p with devirtualize := p.devirtualize ++ [i] }))[f]? =
            (ps[f]?).map (fun p =>
              { p with devirtualize := p.devirtualize ++ [i] }) := by
          rw [modAt_getElem, if_pos rfl]
        cases hq0 : ps[f]? with
        | none =>
          exact absurd (List.getElem?_eq_none_iff.mp hq0) (by omega)
        | some q0 =>
          constructor
          · have hps2f : ∃ qf2, (modAt (modAt ps f (fun p =>
                { p with devirtualize := p.devirtualize ++ [i] })) l
                  (fun p => { p with destroy := p.destroy ++ [i] }))[f]? =
                some qf2 ∧ i ∈ qf2.devirtualize := by
              rw [modAt_getElem]
              by_cases hfl : f = l
              · rw [if_pos hfl, hps1f, hq0]
                exact ⟨_, rfl, by simp⟩
              · rw [if_neg hfl, hps1f, hq0]
                exact ⟨_, rfl, by simp⟩
            obtain ⟨qf2, hqf2, hif2⟩ := hps2f
            obtain ⟨dv, ds, hdv⟩ := happ f
            rw [hqf2] at hdv
            refine ⟨_, hdv, ?_⟩
            simp only [Nat.add_zero]
            simp
            exact Or.inl hif2
          · have hps2l : ∃ ql2, (modAt (modAt ps f (fun p =>
                { p with devirtualize := p.devirtualize ++ [i] })) l
                  (fun p => { p with destroy := p.destroy ++ [i] }))[l]? =
                some ql2 ∧ i ∈ ql2.destroy := by
              rw [modAt_getElem, if_pos rfl, modAt_getElem]
              by_cases hlf : l = f
              · rw [if_pos hlf]
                rw [hlf, hq0]
                exact ⟨_, rfl, by simp⟩
              · rw [if_neg hlf]
                cases hq0' : ps[l]? with
                | none =>
                  exact absurd (List.getElem?_eq_none_iff.mp hq0') (by omega)
                | some q0' => exact ⟨_, rfl, by simp⟩
            obtain ⟨ql2, hql2, hil2⟩ := hps2l
            obtain ⟨dv, ds, hds⟩ := happ l
            rw [hql2] at hds
            refine ⟨_, hds, ?_⟩
            simp only [Nat.add_zero]
            simp
            exact Or.inl hil2
      | succ m =>
        have hm' : rest[m]? = some r := by simpa using hm
        have hstep : ∀ ps2 : List PassNode, ps2.length = ps.length →
            phase5Go rest (i + 1) ps2 = some ps' →
            (∃ qf, ps'[f]? = some qf ∧ (i + (m + 1)) ∈ qf.devirtualize) ∧
            (∃ ql, ps'[l]? = some ql ∧ (i + (m + 1)) ∈ ql.destroy) := by
          intro ps2 hlen h2
          have := ih (i + 1) ps2 h2 m r hm' hrc f l hf hl
            (by omega) (by omega)
          have harith : i + 1 + m = i + (m + 1) := by omega
          rw [harith] at this
          exact this
        cases hf0 : r0.first with
        | none =>
          rw [hf0] at h
          simp only at h
          exact hstep ps rfl h
        | some f0 =>
          rw [hf0] at h
          cases hl0 : r0.last with
          | none =>
            rw [hl0] at h
            simp only at h
            exact hstep ps rfl h
          | some l0 =>
            rw [hl0] at h
            simp only at h
            by_cases hrc0 : r0.readerCount = 0
            · rw [if_pos hrc0] at h
              exact hstep ps rfl h
            · rw [if_neg hrc0] at h
              exact hstep _ (by rw [modAt_length, modAt_length]) h

/-! ### Compile assembly -/

/-- A successful compile decomposes into its five phases. -/
theorem compileFG_destruct (fg fgc : FrameGraph)
    (h : compileFG fg = some fgc) :
    ∃ nodes1 reg1 nodes2 ps3 reg3 ps4 reg4 ps5,
      phase1Go fg.resourceNodes fg.resourceRegistry = (nodes1, reg1) ∧
      applyAliases nodes1 fg.aliases = some nodes2 ∧
      phase3Go nodes2 fg.passNodes 0 reg1 = some (ps3, reg3) ∧
      cullLoop nodes2 (cullFuel ps3 reg3) ps3 reg3 (cullSeed reg3) =
        some (ps4, reg4) ∧
      phase5Go reg4 0 ps4 = some ps5 ∧
      fgc = { fg with passNodes := ps5, resourceNodes := nodes2,
                      resourceRegistry := reg4 } := by
  unfold compileFG at h
  rcases hp1 : phase1Go fg.resourceNodes fg.resourceRegistry with ⟨nodes1, reg1⟩
  rw [hp1] at h
  simp only at h
  cases ha : applyAliases nodes1 fg.aliases with
  | none => rw [ha] at h; exact Option.noConfusion h
  | some nodes2 =>
    rw [ha] at h
    simp only at h
    cases h3 : phase3Go nodes2 fg.passNodes 0 reg1 with
    | none => rw [h3] at h; exact Option.noConfusion h
    | some t3 =>
      obtain ⟨ps3, reg3⟩ := t3
      rw [h3] at h
      simp only at h
      cases h4 : cullLoop nodes2 (cullFuel ps3 reg3) ps3 reg3
          (cullSeed reg3) with
      | none => rw [h4] at h; exact Option.noConfusion h
      | some t4 =>
        obtain ⟨ps4, reg4⟩ := t4
        rw [h4] at h
        simp only at h
        cases h5 : phase5Go reg4 0 ps4 with
        | none => rw [h5] at h; exact Option.noConfusion h
        | some ps5 =>
          rw [h5] at h
          exact ⟨nodes1, reg1, nodes2, ps3, reg3, ps4, reg4, ps5,
            rfl, ha, h3, h4, h5, (Option.some.inj h).symm⟩

/-- `countReads` vanishes exactly when no read record resolves to the
position. -/
theorem countReads_eq_zero (nodes : List ResourceNode) (ps : List PassNode)
    (j : Nat)
    (h : ∀ q ∈ ps, ∀ rec ∈ q.reads, resolve nodes rec.index ≠ some j) :
    countReads nodes ps j = 0 := by
  unfold countReads
  induction ps with
  | nil => rfl
  | cons p rest ih =>
    simp only [List.map_cons, List.sum_cons]
    rw [ih (fun q hq => h q (List.mem_cons_of_mem p hq))]
    have : countResolve nodes p.reads j = 0 := by
      unfold countResolve
      rw [List.countP_eq_zero]
      intro rec hrec
      simpa using h p (List.mem_cons_self p rest) rec hrec
    omega

/-- An element found by position is at most the list's sum. -/
theorem getElem?_le_sum (l : List Nat) (a : Nat) (x : Nat)
    (h : l[a]? = some x) : x ≤ l.sum := by
  exact List.single_le_sum (fun y _ => Nat.zero_le y) x (List.getElem?_mem h)

/-- Two entries at distinct positions together bound the list's sum from
below. -/
theorem two_le_sum (l : List Nat) : ∀ (a b : Nat), a ≠ b → ∀ (x y : Nat),
    l[a]? = some x → l[b]? = some y → x + y ≤ l.sum := by
  induction l with
  | nil =>
    intro a b _ x y hx
    rw [List.getElem?_eq_none (by simp)] at hx
    exact Option.noConfusion hx
  | cons z rest ih =>
    intro a b hab x y hx hy
    simp only [List.sum_cons]
    match a, b with
    | 0, 0 => exact absurd rfl hab
    | 0, b + 1 =>
      have hxz : z = x := by simpa using hx
      have : y ≤ rest.sum := getElem?_le_sum rest b y (by simpa using hy)
      omega
    | a + 1, 0 =>
      have hyz : z = y := by simpa using hy
      have : x ≤ rest.sum := getElem?_le_sum rest a x (by simpa using hx)
      omega
    | a + 1, b + 1 =>
      have := ih a b (by omega) x y (by simpa using hx) (by simpa using hy)
      omega

/-- Occurrences in a `filterMap` count the records mapping to the value. -/
theorem count_filterMap_resolve (nodes : List ResourceNode)
    (recs : List FrameGraphResource) (j : Nat) :
    (recs.filterMap (fun rec => resolve nodes rec.index)).count j =
      countResolve nodes recs j := by
  induction recs with
  | nil => rfl
  | cons rec rest ih =>
    unfold countResolve at ih ⊢
    rw [List.countP_cons]
    cases hres : resolve nodes rec.index with
    | none =>
      simp only [List.filterMap_cons, hres]
      rw [ih]
      simp [hres]
    | some j' =>
      simp only [List.filterMap_cons, hres]
      by_cases hjj : j' = j
      · subst hjj
        rw [List.count_cons_self, ih]
        simp [hres]
      · rw [List.count_cons_of_ne (fun he => hjj he.symm), ih]
        simp [hres, hjj]

/-- A `filterMap` whose function always succeeds preserves length. -/
theorem length_filterMap_all_some (f : FrameGraphResource → Option Nat)
    (recs : List FrameGraphResource)
    (h : ∀ rec ∈ recs, ∃ j, f rec = some j) :
    (recs.filterMap f).length = recs.length := by
  induction recs with
  | nil => rfl
  | cons rec rest ih =>
    obtain ⟨j, hj⟩ := h rec (List.mem_cons_self rec rest)
    rw [List.filterMap_cons_some hj]
    simp only [List.length_cons]
    rw [ih (fun r hr => h r (List.mem_cons_of_mem rec hr))]

/-- Counting members of a duplicate-free list `W` inside a duplicate-free
superlist gives exactly `W.length`. -/
theorem countP_mem_eq_length (s W : List Nat) (hs : s.Nodup) (hW : W.Nodup)
    (hsub : ∀ j ∈ W, j ∈ s) :
    s.countP (fun j => decide (j ∈ W)) = W.length := by
  rw [List.countP_eq_length_filter]
  have hfn : (s.filter (fun j => decide (j ∈ W))).Nodup := hs.filter _
  have hmem : ∀ x, x ∈ s.filter (fun j => decide (j ∈ W)) ↔ x ∈ W := by
    intro x
    rw [List.mem_filter]
    constructor
    · rintro ⟨-, hx⟩
      simpa using hx
    · intro hx
      exact ⟨hsub x hx, by simpa using hx⟩
  have htf : (s.filter (fun j => decide (j ∈ W))).toFinset = W.toFinset := by
    ext x
    simp only [List.mem_toFinset]
    exact hmem x
  calc (s.filter (fun j => decide (j ∈ W))).length
      = (s.filter (fun j => decide (j ∈ W))).toFinset.card :=
        (List.toFinset_card_of_nodup hfn).symm
    _ = W.toFinset.card := by rw [htf]
    _ = W.length := List.toFinset_card_of_nodup hW

/-- Membership in the cull seed. -/
theorem cullSeed_mem (reg : List Resource) (j : Nat) :
    j ∈ cullSeed reg ↔ j < reg.length ∧
      (reg.getD j default).readerCount = 0 := by
  unfold cullSeed
  rw [List.mem_reverse, List.mem_filter, List.mem_range]
  simp

/-- The cull seed has no duplicates. -/
theorem cullSeed_nodup (reg : List Resource) : (cullSeed reg).Nodup := by
  unfold cullSeed
  exact List.nodup_reverse.mpr ((List.nodup_range _).filter _)

/-- `regSim` lists have equal length. -/
theorem regSim_length (a b : List Resource) (h : regSim a b) :
    a.length = b.length := by
  refine Nat.le_antisymm ?_ ?_
  · by_contra hc
    push_neg at hc
    obtain ⟨c, hcb⟩ := h b.length
    rw [List.getElem?_eq_none (le_refl b.length)] at hcb
    cases ha : a[b.length]? with
    | none =>
      rw [List.getElem?_eq_none_iff] at ha
      omega
    | some r => rw [ha] at hcb; exact Option.noConfusion hcb
  · by_contra hc
    push_neg at hc
    obtain ⟨c, hcb⟩ := h a.length
    rw [List.getElem?_eq_none (le_refl a.length)] at hcb
    cases hb : b[a.length]? with
    | none =>
      rw [hb] at hcb
      rw [List.getElem?_eq_none_iff] at hb
      omega
    | some r =>
      rw [hb] at hcb
      exact Option.noConfusion hcb

/-- `passSim` lists have equal length. -/
theorem passSim_length (a b : List PassNode) (h : passSim a b) :
    a.length = b.length := by
  refine Nat.le_antisymm ?_ ?_
  · by_contra hc
    push_neg at hc
    obtain ⟨c, hcb⟩ := h b.length
    rw [List.getElem?_eq_none (le_refl b.length)] at hcb
    cases ha : a[b.length]? with
    | none =>
      rw [List.getElem?_eq_none_iff] at ha
      omega
    | some r => rw [ha] at hcb; exact Option.noConfusion hcb
  · by_contra hc
    push_neg at hc
    obtain ⟨c, hcb⟩ := h a.length
    rw [List.getElem?_eq_none (le_refl a.length)] at hcb
    cases hb : b[a.length]? with
    | none =>
      rw [hb] at hcb
      rw [List.getElem?_eq_none_iff] at hb
      omega
    | some r =>
      rw [hb] at hcb
      exact Option.noConfusion hcb

/-- Claim C3 (amended): after a successful compile of a frame graph built
this frame (empty starting registry), every backing resource's
`writerCount` equals the total number of write records, across all passes,
that resolve to it — it is a record count, not a 0/1 flag, and can exceed
one. -/
theorem c3_writerCount_eq_write_records (fg fgc : FrameGraph)
    (hreg : fg.resourceRegistry = [])
    (hcomp : compileFG fg = some fgc) :
    ∀ (j : Nat) (r : Resource), fgc.resourceRegistry[j]? = some r →
      r.writerCount = countWrites fgc.resourceNodes fg.passNodes j := by
  obtain ⟨nodes1, reg1, nodes2, ps3, reg3, ps4, reg4, ps5, hp1, ha, h3, h4,
    h5, hfgc⟩ := compileFG_destruct fg fgc hcomp
  intro j r hr
  have hrr : fgc.resourceRegistry = reg4 := by rw [hfgc]
  have hrn : fgc.resourceNodes = nodes2 := by rw [hfgc]
  rw [hrr] at hr
  rw [hrn]
  obtain ⟨-, hsim⟩ := cullLoop_sim nodes2 _ ps3 reg3 _ ps4 reg4 h4
  obtain ⟨c, hc⟩ := hsim j
  rw [hr] at hc
  cases hr3 : reg3[j]? with
  | none => rw [hr3] at hc; exact Option.noConfusion hc
  | some r3 =>
    rw [hr3] at hc
    have hrc : r = { r3 with readerCount := c } := Option.some.inj hc
    have hlen : reg3.length = reg1.length :=
      phase3Go_length nodes2 fg.passNodes 0 reg1 ps3 reg3 h3
    have hjlt : j < reg1.length := by
      have := (List.getElem?_eq_some.mp hr3).1
      omega
    cases hr1 : reg1[j]? with
    | none =>
      rw [List.getElem?_eq_none_iff] at hr1
      omega
    | some r1 =>
      obtain ⟨r3', hr3', -, hwc, -⟩ :=
        phase3Go_spec nodes2 fg.passNodes 0 reg1 ps3 reg3 h3 j r1 hr1
      have heq : r3' = r3 := by
        rw [hr3'] at hr3
        exact Option.some.inj hr3
      subst heq
      have hfresh : FreshCounts r1 := by
        refine phase1_fresh fg.resourceNodes fg.resourceRegistry ?_ j r1 ?_
        · rw [hreg]
          intro j' r' h'
          simp at h'
        · rw [hp1]
          exact hr1
      obtain ⟨-, hwc0, -, -, -⟩ := hfresh
      rw [hrc]
      show r3'.writerCount = countWrites nodes2 fg.passNodes j
      omega

/-- Claim C3 (amended, witness): in the write-chain scenario, the backing
resource's writerCount (2) equals the number of write records resolving to
it. -/
theorem c3_writerCount_witness :
    (c3compiled.resourceRegistry.getD 0 default).writerCount =
      countWrites c3compiled.resourceNodes
        ((runOps c3ops).getD default).passNodes 0 := by
  exact c3_writerCount_eq_write_records ((runOps c3ops).getD default)
    c3compiled (by decide) (by decide) 0
    (c3compiled.resourceRegistry.getD 0 default) (by decide)

/-- Claim C4: the cull phase (the `cullLoop`/`cullReads`/`cullSeed`
fixed-point computation) culls dead producers: in a successful compile of a
frame graph built this frame, a pass `p` whose write records all resolve to
backing resources that no read record of any pass resolves to ends with
`refCount = 0`, and none of those backing resources is realized (none
appears on any `devirtualize` list). -/
theorem c4_unread_writer_culled (fg fgc : FrameGraph) (p : Nat)
    (pass : PassNode)
    (hreg : fg.resourceRegistry = [])
    (hlists : ∀ q ∈ fg.passNodes, q.devirtualize = [])
    (hcomp : compileFG fg = some fgc)
    (hpass : fg.passNodes[p]? = some pass)
    (hnoreads : ∀ q ∈ fg.passNodes, ∀ rec ∈ q.reads,
      ∀ j ∈ writeTargets fgc.resourceNodes pass,
        resolve fgc.resourceNodes rec.index ≠ some j) :
    (∀ q', fgc.passNodes[p]? = some q' → q'.refCount = 0) ∧
    (∀ j ∈ writeTargets fgc.resourceNodes pass,
      ∀ (k : Nat) (q' : PassNode), fgc.passNodes[k]? = some q' →
        j ∉ q'.devirtualize) := by
  obtain ⟨nodes1, reg1, nodes2, ps3, reg3, ps4, reg4, ps5, hp1, ha, h3, h4,
    h5, hfgc⟩ := compileFG_destruct fg fgc hcomp
  have hrn : fgc.resourceNodes = nodes2 := by rw [hfgc]
  have hpn : fgc.passNodes = ps5 := by rw [hfgc]
  rw [hrn] at hnoreads ⊢
  rw [hpn]
  set W := writeTargets nodes2 pass with hWdef
  have hpmem : pass ∈ fg.passNodes := List.getElem?_mem hpass
  have hfresh : ∀ (j : Nat) (r : Resource), reg1[j]? = some r →
      FreshCounts r := by
    intro j r hj
    refine phase1_fresh fg.resourceNodes fg.resourceRegistry ?_ j r ?_
    · rw [hreg]
      intro j' r' h'
      simp at h'
    · rw [hp1]
      exact hj
  have hlen31 : reg3.length = reg1.length :=
    phase3Go_length nodes2 fg.passNodes 0 reg1 ps3 reg3 h3
  have hinrange := phase3Go_inrange nodes2 fg.passNodes 0 reg1 ps3 reg3 h3
    pass hpmem
  have hWmem : ∀ j ∈ W, ∃ rec, rec ∈ pass.writes ∧
      resolve nodes2 rec.index = some j := by
    intro j hj
    rw [hWdef, writeTargets] at hj
    exact List.mem_filterMap.mp hj
  have hWlt1 : ∀ j ∈ W, j < reg1.length := by
    intro j hj
    obtain ⟨rec, hrec, hres⟩ := hWmem j hj
    obtain ⟨j2, hres2, hlt2⟩ := hinrange rec hrec
    rw [hres] at hres2
    have : j = j2 := Option.some.inj hres2
    omega
  have hcntR : ∀ j ∈ W, countReads nodes2 fg.passNodes j = 0 := by
    intro j hj
    exact countReads_eq_zero nodes2 fg.passNodes j
      (fun q hq rec hrec => hnoreads q hq rec hrec j hj)
  have hcnt_pass : ∀ j ∈ W, countResolve nodes2 pass.writes j ≠ 0 := by
    intro j hj
    obtain ⟨rec, hrec, hres⟩ := hWmem j hj
    have : 0 < List.countP
        (fun rec => resolve nodes2 rec.index == some j) pass.writes :=
      List.countP_pos_iff.mpr ⟨rec, hrec, by simp [hres]⟩
    unfold countResolve
    omega
  have hcw_ge : ∀ j ∈ W, countResolve nodes2 pass.writes j ≤
      countWrites nodes2 fg.passNodes j := by
    intro j hj
    refine getElem?_le_sum _ p _ ?_
    rw [List.getElem?_map, hpass]
    rfl
  have hreg3 : ∀ j ∈ W, ∃ r3, reg3[j]? = some r3 ∧
      r3.readerCount = 0 ∧
      r3.writerCount = countWrites nodes2 fg.passNodes j ∧
      ((countWrites nodes2 fg.passNodes j = 0 ∧ r3.writer = none) ∨
        ∃ q pq, fg.passNodes[q]? = some pq ∧
          countResolve nodes2 pq.writes j ≠ 0 ∧ r3.writer = some q) := by
    intro j hj
    have hjlt : j < reg1.length := hWlt1 j hj
    cases hr1 : reg1[j]? with
    | none =>
      rw [List.getElem?_eq_none_iff] at hr1
      omega
    | some r1 =>
      obtain ⟨hrc1, hwc1, hwr1, hf1, hl1⟩ := hfresh j r1 hr1
      obtain ⟨r3, hr3, hrcs, hwcs, hwd⟩ :=
        phase3Go_spec nodes2 fg.passNodes 0 reg1 ps3 reg3 h3 j r1 hr1
      refine ⟨r3, hr3, ?_, by omega, ?_⟩
      · rw [hrcs, hrc1, hcntR j hj]
      · rcases hwd with ⟨hz, hw⟩ | ⟨q, pq, hq, hcq, hw⟩
        · exact Or.inl ⟨hz, by rw [hw, hwr1]⟩
        · exact Or.inr ⟨q, pq, hq, hcq, by rw [hw]; simp⟩
  have hWseed : ∀ j ∈ W, j ∈ cullSeed reg3 := by
    intro j hj
    rw [cullSeed_mem]
    obtain ⟨r3, hr3, hrc0, -, -⟩ := hreg3 j hj
    refine ⟨(List.getElem?_eq_some.mp hr3).1, ?_⟩
    rw [List.getD_eq_getElem?_getD, hr3]
    exact hrc0
  have hpops := cullLoop_pops nodes2 _ ps3 reg3 (cullSeed reg3) ps4 reg4 h4
  have hwcW : ∀ j ∈ W, ∀ r3, reg3[j]? = some r3 → r3.writerCount = 1 := by
    intro j hj r3 hr3
    have hle := hpops j (hWseed j hj) r3 hr3
    obtain ⟨r3', hr3', -, hwcs, -⟩ := hreg3 j hj
    have heq : r3' = r3 := by
      rw [hr3'] at hr3
      exact Option.some.inj hr3
    subst heq
    have h1 : countResolve nodes2 pass.writes j ≠ 0 := hcnt_pass j hj
    have h2 := hcw_ge j hj
    omega
  have hwriterW : ∀ j ∈ W, ∀ r3, reg3[j]? = some r3 →
      r3.writer = some p := by
    intro j hj r3 hr3
    obtain ⟨r3', hr3', -, hwcs, hwd⟩ := hreg3 j hj
    have heq : r3' = r3 := by
      rw [hr3'] at hr3
      exact Option.some.inj hr3
    subst heq
    rcases hwd with ⟨hz, -⟩ | ⟨q, pq, hq, hcq, hw⟩
    · exact absurd hz (by
        have := hcw_ge j hj
        have := hcnt_pass j hj
        omega)
    · by_cases hqp : q = p
      · subst hqp
        exact hw
      · exfalso
        have hx : (fg.passNodes.map
            (fun q' => countResolve nodes2 q'.writes j))[p]? =
            some (countResolve nodes2 pass.writes j) := by
          rw [List.getElem?_map, hpass]
          rfl
        have hy : (fg.passNodes.map
            (fun q' => countResolve nodes2 q'.writes j))[q]? =
            some (countResolve nodes2 pq.writes j) := by
          rw [List.getElem?_map, hq]
          rfl
        have hsum := two_le_sum _ p q (fun he => hqp he.symm) _ _ hx hy
        have hone := hwcW j hj r3' hr3'
        have h1 := hcnt_pass j hj
        unfold countWrites at hwcs
        omega
  have hWnodup : W.Nodup := by
    rw [List.nodup_iff_count_le_one]
    intro j
    by_cases hj : j ∈ W
    · have hcnt := count_filterMap_resolve nodes2 pass.writes j
      obtain ⟨r3, hr3, -, hwcs, -⟩ := hreg3 j hj
      have hone := hwcW j hj r3 hr3
      have hge := hcw_ge j hj
      rw [hWdef, writeTargets, hcnt]
      omega
    · rw [List.count_eq_zero.mpr hj]
      omega
  have hWlen : W.length = pass.writes.length := by
    rw [hWdef, writeTargets]
    refine length_filterMap_all_some _ _ ?_
    intro rec hrec
    obtain ⟨j2, hres2, -⟩ := hinrange rec hrec
    exact ⟨j2, hres2⟩
  have hseedP : (cullSeed reg3).countP (fun j => decide (j ∈ W)) =
      pass.writes.length := by
    rw [countP_mem_eq_length _ _ (cullSeed_nodup reg3) hWnodup hWseed, hWlen]
  have hps3 := phase3Go_ps nodes2 fg.passNodes 0 reg1 ps3 reg3 h3
  obtain ⟨hend, hWpres⟩ := cullLoop_main nodes2 W p _ ps3 reg3 (cullSeed reg3)
    ps4 reg4 h4
    (by
      intro q hq rec hrec j hj
      rw [hps3] at hq
      obtain ⟨q0, hq0, rfl⟩ := List.mem_map.mp hq
      exact hnoreads q0 hq0 rec hrec j hj)
    (by
      intro j hj r3 hr3
      obtain ⟨r3', hr3', hrc0, -, -⟩ := hreg3 j hj
      have heq : r3' = r3 := by
        rw [hr3'] at hr3
        exact Option.some.inj hr3
      subst heq
      exact ⟨hrc0, hwriterW j hj r3' hr3'⟩)
    (by
      intro j r3 hr3 hwr
      have hjlt : j < reg1.length := by
        have := (List.getElem?_eq_some.mp hr3).1
        omega
      cases hr1 : reg1[j]? with
      | none =>
        rw [List.getElem?_eq_none_iff] at hr1
        omega
      | some r1 =>
        obtain ⟨-, -, hwr1, -, -⟩ := hfresh j r1 hr1
        obtain ⟨r3', hr3', -, -, hwd⟩ :=
          phase3Go_spec nodes2 fg.passNodes 0 reg1 ps3 reg3 h3 j r1 hr1
        have heq : r3' = r3 := by
          rw [hr3'] at hr3
          exact Option.some.inj hr3
        subst heq
        rcases hwd with ⟨-, hw⟩ | ⟨q, pq, hq, hcq, hw⟩
        · rw [hw, hwr1] at hwr
          exact Option.noConfusion hwr
        · rw [hw] at hwr
          have hqp : q = p := by
            have := Option.some.inj hwr
            omega
          subst hqp
          have hpq : pq = pass := by
            rw [hpass] at hq
            exact (Option.some.inj hq).symm
          rw [hpq] at hcq
          have : 0 < List.countP
              (fun rec : FrameGraphResource =>
                resolve nodes2 rec.index == some j) pass.writes := by
            unfold countResolve at hcq
            omega
          obtain ⟨rec, hrec, hres⟩ := List.countP_pos_iff.mp this
          rw [hWdef, writeTargets]
          refine List.mem_filterMap.mpr ⟨rec, hrec, ?_⟩
          simpa using hres)
    (by
      intro q hq
      rw [hps3, List.getElem?_map, hpass] at hq
      have : q = { pass with refCount := pass.writes.length } :=
        (Option.some.inj hq).symm
      rw [this, hseedP])
  constructor
  · intro q' hq'
    have happ := phase5Go_app reg4 0 ps4 ps5 h5
    obtain ⟨dv, ds, hd⟩ := happ p
    rw [hq'] at hd
    cases hq4 : ps4[p]? with
    | none => rw [hq4] at hd; exact Option.noConfusion hd
    | some q4 =>
      rw [hq4] at hd
      have : q' = { q4 with devirtualize := q4.devirtualize ++ dv,
                            destroy := q4.destroy ++ ds } :=
        Option.some.inj hd
      rw [this]
      show q4.refCount = 0
      exact hend q4 hq4
  · intro j hj k q' hq' hmem'
    rcases phase5Go_devirt_src reg4 0 ps4 ps5 h5 k q' hq' j hmem' with
      ⟨q0, hq0, hj0⟩ | ⟨m, r4, hm, hjm, hrc4, -⟩
    · obtain ⟨hsimP, -⟩ := cullLoop_sim nodes2 _ ps3 reg3 _ ps4 reg4 h4
      obtain ⟨c, hcp⟩ := hsimP k
      rw [hq0] at hcp
      cases hq3 : ps3[k]? with
      | none => rw [hq3] at hcp; exact Option.noConfusion hcp
      | some q3 =>
        rw [hq3] at hcp
        have hq0eq : q0 = { q3 with refCount := c } := Option.some.inj hcp
        rw [hps3, List.getElem?_map] at hq3
        cases hqk : fg.passNodes[k]? with
        | none => rw [hqk] at hq3; exact Option.noConfusion hq3
        | some qk =>
          rw [hqk] at hq3
          have hq3eq : q3 = { qk with refCount := qk.writes.length } :=
            (Option.some.inj hq3).symm
          have hdv : q0.devirtualize = qk.devirtualize := by
            rw [hq0eq, hq3eq]
          rw [hdv, hlists qk (List.getElem?_mem hqk)] at hj0
          cases hj0
    · have hjm' : j = m := by omega
      subst hjm'
      obtain ⟨r3, hr3, hrc0, -, -⟩ := hreg3 j hj
      rw [hWpres j hj, hr3] at hm
      have : r3 = r4 := Option.some.inj hm
      subst this
      exact hrc4 hrc0

/-- Claim C4 (witness): in the culling scenario a pass A writes `shadow`
that nobody reads while pass B writes `final` which is presented; applying
the theorem to pass A. -/
theorem c4_cull_witness :
    (∀ q', c4compiled.passNodes[(0 : Nat)]? = some q' → q'.refCount = 0) ∧
    (∀ j ∈ writeTargets c4compiled.resourceNodes c4passA,
      ∀ (k : Nat) (q' : PassNode), c4compiled.passNodes[k]? = some q' →
        j ∉ q'.devirtualize) := by
  exact c4_unread_writer_culled ((runOps c4ops).getD default) c4compiled 0
    c4passA (by decide) (by decide) (by decide) (by decide) (by decide)

/-- Claim C5: after a successful compile of a frame graph built this frame
(sequential pass ids), every backing `Resource` has `first` set iff `last`
is set; when both are set the passes they point at exist and satisfy
`first.id <= last.id`, and if additionally `readerCount` is non-zero the
registry index is on `first.devirtualize` and on `last.destroy`; a resource
with `readerCount = 0` or with `first`/`last` unset appears on no
`devirtualize` or `destroy` list. -/
theorem c5_lifetime_attachment (fg fgc : FrameGraph)
    (hreg : fg.resourceRegistry = [])
    (hlists : ∀ q ∈ fg.passNodes, q.devirtualize = [] ∧ q.destroy = [])
    (hids : fg.passNodes.Pairwise (fun a b => a.id ≤ b.id))
    (hcomp : compileFG fg = some fgc) :
    ∀ (j : Nat) (r : Resource), fgc.resourceRegistry[j]? = some r →
      ((r.first = none) ↔ (r.last = none)) ∧
      (∀ f l, r.first = some f → r.last = some l →
        ∃ qf ql, fgc.passNodes[f]? = some qf ∧
          fgc.passNodes[l]? = some ql ∧ qf.id ≤ ql.id ∧
          (r.readerCount ≠ 0 → j ∈ qf.devirtualize ∧ j ∈ ql.destroy)) ∧
      ((r.readerCount = 0 ∨ r.first = none) →
        ∀ (k : Nat) (q' : PassNode), fgc.passNodes[k]? = some q' →
          j ∉ q'.devirtualize ∧ j ∉ q'.destroy) := by
  obtain ⟨nodes1, reg1, nodes2, ps3, reg3, ps4, reg4, ps5, hp1, ha, h3, h4,
    h5, hfgc⟩ := compileFG_destruct fg fgc hcomp
  have hrr : fgc.resourceRegistry = reg4 := by rw [hfgc]
  have hpn : fgc.passNodes = ps5 := by rw [hfgc]
  rw [hrr, hpn]
  have hfresh : ∀ (j : Nat) (r : Resource), reg1[j]? = some r →
      FreshCounts r := by
    intro j r hj
    refine phase1_fresh fg.resourceNodes fg.resourceRegistry ?_ j r ?_
    · rw [hreg]
      intro j' r' h'
      simp at h'
    · rw [hp1]
      exact hj
  have hfl1 : FLInv reg1 0 := by
    intro j r hr
    obtain ⟨-, -, -, hf, hl⟩ := hfresh j r hr
    exact Or.inl ⟨hf, hl⟩
  have hfl3 : FLInv reg3 (0 + fg.passNodes.length) :=
    phase3Go_FLInv nodes2 fg.passNodes 0 reg1 ps3 reg3 h3 hfl1
  obtain ⟨hsimP, hsimR⟩ := cullLoop_sim nodes2 _ ps3 reg3 _ ps4 reg4 h4
  have hps3 := phase3Go_ps nodes2 fg.passNodes 0 reg1 ps3 reg3 h3
  have hfl4 : FLInv reg4 fg.passNodes.length := by
    intro j r hr
    obtain ⟨c, hc⟩ := hsimR j
    rw [hr] at hc
    cases h3j : reg3[j]? with
    | none => rw [h3j] at hc; exact Option.noConfusion hc
    | some r3 =>
      rw [h3j] at hc
      have hre : r = { r3 with readerCount := c } := Option.some.inj hc
      rcases hfl3 j r3 h3j with ⟨hf, hl⟩ | ⟨f, l, hf, hl, hfle, hlk⟩
      · exact Or.inl (by rw [hre]; exact ⟨hf, hl⟩)
      · exact Or.inr ⟨f, l, by rw [hre]; exact hf, by rw [hre]; exact hl,
          hfle, by omega⟩
  have hregfl : ∀ (j : Nat) (r : Resource), reg4[j]? = some r →
      ∃ r3, reg3[j]? = some r3 ∧ r3.first = r.first ∧ r3.last = r.last := by
    intro j r hr
    obtain ⟨c, hc⟩ := hsimR j
    rw [hr] at hc
    cases h3j : reg3[j]? with
    | none => rw [h3j] at hc; exact Option.noConfusion hc
    | some r3 =>
      rw [h3j] at hc
      have hre : r = { r3 with readerCount := c } := Option.some.inj hc
      exact ⟨r3, rfl, by rw [hre], by rw [hre]⟩
  have hlen3 : ps3.length = fg.passNodes.length := by
    rw [hps3, List.length_map]
  have hlen4 : ps4.length = fg.passNodes.length := by
    rw [← passSim_length ps3 ps4 hsimP, hlen3]
  have pass5At : ∀ (k : Nat) (pk : PassNode), fg.passNodes[k]? = some pk →
      ∃ q5, ps5[k]? = some q5 ∧ q5.id = pk.id := by
    intro k pk hk
    obtain ⟨dv, ds, hd⟩ := phase5Go_app reg4 0 ps4 ps5 h5 k
    obtain ⟨c, hsp⟩ := hsimP k
    rw [hps3, List.getElem?_map, hk] at hsp
    simp only [Option.map_some'] at hsp
    rw [hsp] at hd
    simp only [Option.map_some'] at hd
    exact ⟨_, hd, rfl⟩
  intro j r hr
  refine ⟨?_, ?_, ?_⟩
  · rcases hfl4 j r hr with ⟨hf, hl⟩ | ⟨f, l, hf, hl, -, -⟩
    · rw [hf, hl]
    · rw [hf, hl]
      simp
  · intro f l hf hl
    have hbound : f ≤ l ∧ l < fg.passNodes.length := by
      rcases hfl4 j r hr with ⟨hf0, -⟩ | ⟨f', l', hf', hl', hfle, hlk⟩
      · rw [hf0] at hf
        exact Option.noConfusion hf
      · rw [hf'] at hf
        rw [hl'] at hl
        have h1 : f' = f := Option.some.inj hf
        have h2 : l' = l := Option.some.inj hl
        omega
    cases hkf : fg.passNodes[f]? with
    | none =>
      rw [List.getElem?_eq_none_iff] at hkf
      omega
    | some pf =>
      cases hkl : fg.passNodes[l]? with
      | none =>
        rw [List.getElem?_eq_none_iff] at hkl
        omega
      | some pl =>
        obtain ⟨qf, hqf, hqfid⟩ := pass5At f pf hkf
        obtain ⟨ql, hql, hqlid⟩ := pass5At l pl hkl
        refine ⟨qf, ql, hqf, hql, ?_, ?_⟩
        · rw [hqfid, hqlid]
          rcases Nat.lt_or_ge f l with hlt | hge
          · obtain ⟨hfb, hfe⟩ := List.getElem?_eq_some.mp hkf
            obtain ⟨hlb, hle⟩ := List.getElem?_eq_some.mp hkl
            have := List.pairwise_iff_getElem.mp hids f l hfb hlb hlt
            rw [hfe, hle] at this
            exact this
          · have heq : f = l := by omega
            subst heq
            rw [hkf] at hkl
            rw [Option.some.inj hkl]
        · intro hrc
          obtain ⟨⟨qf', hqf', hmf⟩, ⟨ql', hql', hml⟩⟩ :=
            phase5Go_attach reg4 0 ps4 ps5 h5 j r hr hrc f l hf hl
              (by omega) (by omega)
          constructor
          · have heq : qf' = qf := by
              rw [hqf] at hqf'
              exact (Option.some.inj hqf').symm
            rw [← heq]
            simpa using hmf
          · have heq : ql' = ql := by
              rw [hql] at hql'
              exact (Option.some.inj hql').symm
            rw [← heq]
            simpa using hml
  · intro hdead k q' hq'
    have hps4clean : ∀ (q0 : PassNode), ps4[k]? = some q0 →
        q0.devirtualize = [] ∧ q0.destroy = [] := by
      intro q0 hq0
      obtain ⟨c, hsp⟩ := hsimP k
      rw [hq0] at hsp
      rw [hps3, List.getElem?_map] at hsp
      cases hk : fg.passNodes[k]? with
      | none => rw [hk] at hsp; exact Option.noConfusion hsp
      | some pk =>
        rw [hk] at hsp
        simp only [Option.map_some'] at hsp
        have hq0e : q0 = { pk with refCount := c } := Option.some.inj hsp
        obtain ⟨hdv, hds⟩ := hlists pk (List.getElem?_mem hk)
        constructor
        · rw [hq0e]
          exact hdv
        · rw [hq0e]
          exact hds
    constructor
    · intro hmem
      rcases phase5Go_devirt_src reg4 0 ps4 ps5 h5 k q' hq' j hmem with
        ⟨q0, hq0, hj0⟩ | ⟨m, rm, hm, hjm, hrcm, hfm⟩
      · rw [(hps4clean q0 hq0).1] at hj0
        cases hj0
      · have hjm' : j = m := by omega
        subst hjm'
        rw [hr] at hm
        have hre : rm = r := (Option.some.inj hm).symm
        rcases hdead with hrc0 | hf0
        · rw [hre, hrc0] at hrcm
          exact hrcm rfl
        · rw [hre, hf0] at hfm
          exact Option.noConfusion hfm
    · intro hmem
      rcases phase5Go_destroy_src reg4 0 ps4 ps5 h5 k q' hq' j hmem with
        ⟨q0, hq0, hj0⟩ | ⟨m, rm, hm, hjm, hrcm, hlm⟩
      · rw [(hps4clean q0 hq0).2] at hj0
        cases hj0
      · have hjm' : j = m := by omega
        subst hjm'
        rw [hr] at hm
        have hre : rm = r := (Option.some.inj hm).symm
        rcases hdead with hrc0 | hf0
        · rw [hre, hrc0] at hrcm
          exact hrcm rfl
        · have hl0 : r.last = none := by
            rcases hfl4 j r hr with ⟨-, hl⟩ | ⟨f', l', hf', -, -, -⟩
            · exact hl
            · rw [hf0] at hf'
              exact Option.noConfusion hf'
          rw [hre, hl0] at hlm
          exact Option.noConfusion hlm

/-- Claim C5 (witness): in the lifetime scenario a single pass writes a
texture which is presented; applying the theorem at the single backing
resource. -/
theorem c5_lifetime_witness :
    ((c5res.first = none) ↔ (c5res.last = none)) ∧
    (∀ f l, c5res.first = some f → c5res.last = some l →
      ∃ qf ql, c5compiled.passNodes[f]? = some qf ∧
        c5compiled.passNodes[l]? = some ql ∧ qf.id ≤ ql.id ∧
        (c5res.readerCount ≠ 0 → 0 ∈ qf.devirtualize ∧ 0 ∈ ql.destroy)) ∧
    ((c5res.readerCount = 0 ∨ c5res.first = none) →
      ∀ (k : Nat) (q' : PassNode), c5compiled.passNodes[k]? = some q' →
        0 ∉ q'.devirtualize ∧ 0 ∉ q'.destroy) := by
  exact c5_lifetime_attachment ((runOps c5ops).getD default) c5compiled
    (by decide) (by decide) (by decide) (by decide) 0 c5res (by decide)

/-- Claim C1 (code_bug evidence): evaluating scenario S1.  Compile behaves
as the claim says (GBuffer's refCount is 1, the texture's registry position
is on GBuffer's devirtualize list and on Present's destroy list), but the
Present pass has `refCount = 0`, so the execute loop skips it: the driver
receives exactly one `createTexture` and one `createRenderTarget` and no
destroy call at all, and the frame reset then trips `Resource::~Resource`'s
assert that all driver handles were destroyed. -/
theorem c1_s1_trivial_present :
    (runOps s1ops).bind compileFG = some s1compiled ∧
    (s1compiled.passNodes.getD 0 default).name = "GBuffer" ∧
    (s1compiled.passNodes.getD 0 default).refCount = 1 ∧
    (s1compiled.passNodes.getD 0 default).devirtualize = [0] ∧
    (s1compiled.passNodes.getD 1 default).name = "Present" ∧
    (s1compiled.passNodes.getD 1 default).refCount = 0 ∧
    (s1compiled.passNodes.getD 1 default).destroy = [0] ∧
    (execGo s1compiled.passNodes s1compiled.resourceRegistry 0).map
        (fun t => driverCalls t.2.2) =
      some [Event.createTexture 0 0, Event.createRenderTarget 1] ∧
    executeFG s1compiled = none := by
  decide

/-- Claim C2 (counterexample): `write` on a node at version 65535 is
accepted, yet the version after the call is 0, not 65536, and the handle
appended and returned carries version 0 — the 16-bit version counter
wraps, so "increments the version by exactly 1" fails at this input. -/
theorem c2_version_wrap_cex :
    (builderWrite c2fgWrap 0 { index := 0, version := 65535 } COLOR).map
        (fun res => ((res.1.resourceNodes.getD 0 default).version,
                     (res.1.passNodes.getD 0 default).writes, res.2)) =
      some (0, [{ index := 0, version := 0 }], { index := 0, version := 0 }) ∧
    (0 : Nat) ≠ 65535 + 1 := by
  decide

/-- Claim C2 (amended): a successful `write(h, flags)` bumps the node's
16-bit version to `(version + 1) % 65536` — so by exactly 1 whenever the
version is below 65535 — ORs the flags into the node's write-flag set,
appends `{index, new version}` to the current pass's writes, returns
`{index, new version}`, and invalidates the original handle. -/
theorem c2_write_bumps_version (fg : FrameGraph) (p : Nat)
    (h : FrameGraphResource) (flags : Nat) (node : ResourceNode) (q : PassNode)
    (hnode : fg.resourceNodes[h.index]? = some node)
    (hq : fg.passNodes[p]? = some q)
    (hvalid : h.isValid = true)
    (hver : h.version = node.version) :
    ∃ fg1, builderWrite fg p h flags =
        some (fg1, { index := node.index,
                     version := (node.version + 1) % 65536 }) ∧
      fg1.resourceNodes[h.index]? =
        some { node with writeFlags := node.writeFlags ||| flags,
                         version := (node.version + 1) % 65536 } ∧
      (node.version < 65535 → (node.version + 1) % 65536 = node.version + 1) ∧
      fg1.passNodes[p]? =
        some { q with writes := q.writes ++
          [{ index := node.index, version := (node.version + 1) % 65536 }] } ∧
      fg1.isValidH h = some false := by
  have hlt : h.index < fg.resourceNodes.length := (List.getElem?_eq_some.mp hnode).1
  have hplt : p < fg.passNodes.length := (List.getElem?_eq_some.mp hq).1
  have hbw : builderWrite fg p h flags =
      some ({ fg with
          resourceNodes := fg.resourceNodes.set h.index
            { node with writeFlags := node.writeFlags ||| flags,
                        version := (node.version + 1) % 65536 },
          passNodes := modAt fg.passNodes p (fun q1 =>
            { q1 with writes := q1.writes ++
                [{ index := node.index,
                   version := (node.version + 1) % 65536 }] }) },
        { index := node.index, version := (node.version + 1) % 65536 }) := by
    unfold builderWrite
    rw [hvalid, hnode]
    simp [hver]
  refine ⟨_, hbw, ?_, ?_, ?_, ?_⟩
  · rw [List.getElem?_set_self hlt]
  · intro hsmall
    omega
  · show (modAt fg.passNodes p _)[p]? = _
    unfold modAt
    rw [hq, List.getElem?_set_self hplt]
  · show FrameGraph.isValidH _ h = some false
    unfold FrameGraph.isValidH
    rw [hvalid]
    simp only [Bool.true_eq_false, if_false]
    show (match (fg.resourceNodes.set h.index _)[h.index]? with
      | none => none
      | some node => some (h.version == node.version)) = some false
    rw [List.getElem?_set_self hlt]
    simp only [Option.some.injEq]
    rw [hver]
    simp only [beq_eq_false_iff_ne, ne_eq]
    omega

/-- Claim C2 (witness): the amended write theorem applied to a concrete
one-pass, one-resource graph. -/
theorem c2_write_bumps_version_witness :
    ∃ fg1, builderWrite c2fg 0 { index := 0, version := 0 } COLOR =
        some (fg1, { index := 0, version := 1 }) ∧
      fg1.resourceNodes[(0 : Nat)]? =
        some { name := "x", index := 0, version := 1, writeFlags := COLOR } ∧
      ((0 : Nat) < 65535 → (0 + 1) % 65536 = 0 + 1) ∧
      fg1.passNodes[(0 : Nat)]? =
        some { name := "A", id := 0,
               writes := [{ index := 0, version := 1 }] } ∧
      fg1.isValidH { index := 0, version := 0 } = some false := by
  exact c2_write_bumps_version c2fg 0 { index := 0, version := 0 } COLOR
    { name := "x", index := 0 } { name := "A", id := 0 }
    (by decide) (by decide) (by decide) (by decide)

/-- Claim C3 (counterexample): the write-chain scenario `c3ops` is a
sequence of builder calls that are all accepted (every handle is valid when
used), compile succeeds, and the single backing resource ends with
`readerCount = 2` and `writerCount = 2` — so "after compile, every backing
Resource with non-zero reader or writer count has writerCount ≤ 1" is
false.  The companion scenario `c3badOps` (the same chain with no reader)
shows the `writerCount ≤ 1` assertion itself failing on an accepted
sequence: compile aborts. -/
theorem c3_writer_uniqueness_cex :
    (runOps c3ops).bind compileFG = some c3compiled ∧
    (c3compiled.resourceRegistry.getD 0 default).readerCount = 2 ∧
    (c3compiled.resourceRegistry.getD 0 default).writerCount = 2 ∧
    ¬ (c3compiled.resourceRegistry.getD 0 default).writerCount ≤ 1 ∧
    (runOps c3badOps).map (fun fg => fg.passNodes.length) = some 2 ∧
    (runOps c3badOps).bind compileFG = none := by
  decide

/-- Claim C8: `getTexture` returns slot 0 for `COLOR_ATTACHMENT`, slot 1
for `DEPTH_ATTACHMENT`, and for `DEFAULT` slot 1 exactly when the backing
resource's read-flag set equals DEPTH, slot 0 otherwise — in particular
COLOR|DEPTH yields slot 0. -/
theorem c8_getTexture_slots (fg : FrameGraph) (r : FrameGraphResource)
    (node : ResourceNode) (j : Nat) (res : Resource)
    (h1 : fg.resourceNodes[r.index]? = some node)
    (h2 : node.resource = some j)
    (h3 : fg.resourceRegistry[j]? = some res) :
    getTexture fg r .COLOR_ATTACHMENT = some res.tex0 ∧
    getTexture fg r .DEPTH_ATTACHMENT = some res.tex1 ∧
    getTexture fg r .DEFAULT =
      some (if res.readFlags = DEPTH then res.tex1 else res.tex0) ∧
    (res.readFlags = (COLOR ||| DEPTH) →
      getTexture fg r .DEFAULT = some res.tex0) := by
  refine ⟨?_, ?_, ?_, ?_⟩
  · simp [getTexture, h1, h2, h3]
  · simp [getTexture, h1, h2, h3]
  · simp [getTexture, h1, h2, h3]
  · intro hcd
    simp [getTexture, h1, h2, h3, hcd, COLOR, DEPTH]

/-- Claim C8 (witness): reading the textures of the realized resource of the
read-own-write scenario just before its destruction would return slot 0;
here we instantiate on a directly constructed state whose only resource has
both slots filled and readFlags = COLOR|DEPTH. -/
theorem c8_getTexture_witness :
    getTexture { resourceNodes := [{ name := "g", index := 0,
                                     resource := some 0 }],
                 resourceRegistry := [{ name := "g", readFlags := 3,
                                        tex0 := some 4, tex1 := some 5 }] }
        { index := 0, version := 0 } .DEFAULT = some (some 4) := by
  have h := c8_getTexture_slots
    { resourceNodes := [{ name := "g", index := 0, resource := some 0 }],
      resourceRegistry := [{ name := "g", readFlags := 3,
                             tex0 := some 4, tex1 := some 5 }] }
    { index := 0, version := 0 }
    { name := "g", index := 0, resource := some 0 } 0
    { name := "g", readFlags := 3, tex0 := some 4, tex1 := some 5 }
    rfl rfl rfl
  exact h.2.2.2 (by decide)

/-- Claim C9: `read` and `write` through an invalid handle — the sentinel,
or a version that differs from the node's current version — return the
sentinel handle and leave the frame graph unchanged (same node flags and
version, same pass reads/writes), and take the recoverable path (`some`,
no abort). -/
theorem c9_invalid_handle_noop (fg : FrameGraph) (p : Nat)
    (h : FrameGraphResource) (flags : Nat)
    (hinv : h.isValid = false ∨
      ∃ node, fg.resourceNodes[h.index]? = some node ∧
        h.version ≠ node.version) :
    builderRead fg p h flags = some (fg, { index := sentinelIndex,
                                           version := 0 }) ∧
    builderWrite fg p h flags = some (fg, { index := sentinelIndex,
                                            version := 0 }) := by
  rcases hinv with hs | ⟨node, hnode, hver⟩
  · constructor
    · unfold builderRead
      rw [hs]
      rfl
    · unfold builderWrite
      rw [hs]
      rfl
  · rcases hb : h.isValid with _ | _
    · constructor
      · unfold builderRead
        rw [hb]
        rfl
      · unfold builderWrite
        rw [hb]
        rfl
    · constructor
      · unfold builderRead
        rw [hb, hnode]
        simp [hver]
      · unfold builderWrite
        rw [hb, hnode]
        simp [hver]

/-- Claim C9 (witness): a stale handle (version 0 after the node moved to
version 1) and the sentinel both no-op on a concrete graph. -/
theorem c9_invalid_handle_witness :
    builderRead c2fgWrap 0 { index := 0, version := 7 } COLOR =
      some (c2fgWrap, { index := sentinelIndex, version := 0 }) ∧
    builderWrite c2fgWrap 0 { index := 0, version := 7 } COLOR =
      some (c2fgWrap, { index := sentinelIndex, version := 0 }) := by
  exact c9_invalid_handle_noop c2fgWrap 0 { index := 0, version := 7 } COLOR
    (Or.inr ⟨{ name := "x", index := 0, version := 65535 }, by decide,
      by decide⟩)

/-- Claim C10: `Resource::create` asserts a non-empty read-flag set whenever
`readerCount > 0` (and a non-empty write-flag set whenever
`writerCount > 0`); `Builder::read` accepts a zero flag argument on a valid
handle and still records the read; consequently a zero-flag read of an
otherwise live resource (scenario `c10ops`) passes compile but makes
realization assert-fail at execute time. -/
theorem c10_zero_flag_realization :
    (∀ (next : Nat) (r : Resource), r.readerCount ≠ 0 → r.readFlags = 0 →
      createRes next r = none) ∧
    (∀ (next : Nat) (r : Resource), r.readerCount = 0 → r.writerCount ≠ 0 →
      r.writeFlags = 0 → createRes next r = none) ∧
    (∀ (fg : FrameGraph) (p : Nat) (h : FrameGraphResource)
        (node : ResourceNode) (q : PassNode),
      fg.resourceNodes[h.index]? = some node → fg.passNodes[p]? = some q →
      h.isValid = true → h.version = node.version →
      ∃ fg1, builderRead fg p h 0 = some (fg1, h) ∧
        fg1.passNodes[p]? = some { q with reads := q.reads ++
          [{ index := node.index, version := node.version }] }) ∧
    ((runOps c10ops).bind compileFG).isSome = true ∧
    frameTrace emptyFG c10ops = none := by
  refine ⟨?_, ?_, ?_, by decide, by decide⟩
  · intro next r h1 h2
    simp [createRes, createResTex, h1, h2]
  · intro next r h1 h2 h3
    simp [createRes, createResTex, createResTarget, h1, h2, h3]
  · intro fg p h node q hnode hq hvalid hver
    have hplt : p < fg.passNodes.length := (List.getElem?_eq_some.mp hq).1
    have hbr : builderRead fg p h 0 =
        some ({ fg with
            resourceNodes := fg.resourceNodes.set h.index
              { node with readFlags := node.readFlags ||| 0 },
            passNodes := modAt fg.passNodes p (fun q1 =>
              { q1 with reads := q1.reads ++
                  [{ index := node.index, version := node.version }] }) },
          h) := by
      unfold builderRead
      rw [hvalid, hnode]
      simp [hver]
    refine ⟨_, hbr, ?_⟩
    show (modAt fg.passNodes p _)[p]? = _
    unfold modAt
    rw [hq, List.getElem?_set_self hplt]

/-- Claim C10 (witness): the assert components and the concrete zero-flag
scenario. -/
theorem c10_zero_flag_witness :
    createRes 0 { name := "x", readerCount := 1, readFlags := 0 } = none ∧
    createRes 0 { name := "y", writerCount := 1, writeFlags := 0 } = none ∧
    (∃ fg1, builderRead c2fg 0 { index := 0, version := 0 } 0 =
        some (fg1, { index := 0, version := 0 }) ∧
      fg1.passNodes[(0 : Nat)]? =
        some { name := "A", id := 0,
               reads := [{ index := 0, version := 0 }] }) ∧
    frameTrace emptyFG c10ops = none := by
  refine ⟨c10_zero_flag_realization.1 0 _ (by decide) rfl,
          c10_zero_flag_realization.2.1 0 _ rfl (by decide) rfl,
          ?_,
          c10_zero_flag_realization.2.2.2.2⟩
  exact c10_zero_flag_realization.2.2.1 c2fg 0 { index := 0, version := 0 }
    { name := "x", index := 0 } { name := "A", id := 0 }
    (by decide) (by decide) (by decide) (by decide)

/-- Claim C7: `execute` ends by clearing all four per-frame containers, so
whatever graph it ran, a successful execute leaves the empty frame graph —
and therefore re-running any registration sequence (e.g. scenario S6, the
same sequence twice) starts from the same state and produces the same
frame trace. -/
theorem c7_execute_resets (fg : FrameGraph) (tr : List Event)
    (fg' : FrameGraph) (ops : List Op)
    (h : executeFG fg = some (tr, fg')) :
    fg' = emptyFG ∧ fg'.passNodes = [] ∧ fg'.resourceNodes = [] ∧
    fg'.resourceRegistry = [] ∧ fg'.aliases = [] ∧
    frameTrace fg' ops = frameTrace emptyFG ops := by
  have hfg : fg' = emptyFG := by
    unfold executeFG at h
    cases hg : execGo fg.passNodes fg.resourceRegistry 0 with
    | none => rw [hg] at h; cases h
    | some t =>
      obtain ⟨reg, next, ev⟩ := t
      rw [hg] at h
      simp only at h
      split at h
      · exact (Option.some.inj h ▸ rfl : (ev, emptyFG).2 = fg') ▸ rfl
      · cases h
  subst hfg
  exact ⟨rfl, rfl, rfl, rfl, rfl, rfl⟩

/-- Claim C7 (witness): the read-own-write scenario executes successfully,
so the reset theorem applies to it with the S1 registration sequence as the
follow-up frame. -/
theorem c7_execute_resets_witness :
    emptyFG = emptyFG ∧ emptyFG.passNodes = [] ∧
    emptyFG.resourceNodes = [] ∧ emptyFG.resourceRegistry = [] ∧
    emptyFG.aliases = [] ∧
    frameTrace emptyFG s1ops = frameTrace emptyFG s1ops := by
  exact c7_execute_resets rwCompiled rwTrace emptyFG s1ops (by decide)

/-- Events produced by the reader half of `Resource::create` are driver
create calls. -/
theorem createResTex_events (next : Nat) (r : Resource) (n1 : Nat)
    (r1 : Resource) (ev : List Event)
    (h : createResTex next r = some (n1, r1, ev)) :
    ∀ e ∈ ev, e.isCreate = true := by
  unfold createResTex at h
  intro e he
  split at h <;> try split at h <;> try split at h <;> try split at h
  all_goals try exact Option.noConfusion h
  all_goals
    obtain ⟨-, -, hev⟩ : _ ∧ _ ∧ _ = ev := by
      simpa only [Option.some.injEq, Prod.mk.injEq] using h
  all_goals subst hev
  all_goals simp only [List.mem_cons, List.not_mem_nil, or_false] at he
  all_goals rcases he with rfl | rfl <;> rfl

/-- Events produced by the writer half of `Resource::create` are driver
create calls. -/
theorem createResTarget_events (next : Nat) (r : Resource) (n1 : Nat)
    (r1 : Resource) (ev : List Event)
    (h : createResTarget next r = some (n1, r1, ev)) :
    ∀ e ∈ ev, e.isCreate = true := by
  unfold createResTarget at h
  intro e he
  split at h <;> try split at h
  all_goals try exact Option.noConfusion h
  all_goals
    obtain ⟨-, -, hev⟩ : _ ∧ _ ∧ _ = ev := by
      simpa only [Option.some.injEq, Prod.mk.injEq] using h
  all_goals subst hev
  all_goals simp only [List.mem_cons, List.not_mem_nil, or_false] at he
  all_goals rcases he with rfl | rfl <;> rfl

/-- Events produced by `Resource::create` are driver create calls. -/
theorem createRes_events (next : Nat) (r : Resource) (n2 : Nat)
    (r2 : Resource) (ev : List Event)
    (h : createRes next r = some (n2, r2, ev)) :
    ∀ e ∈ ev, e.isCreate = true := by
  unfold createRes at h
  cases h1 : createResTex next r with
  | none => rw [h1] at h; cases h
  | some t1 =>
    obtain ⟨m1, s1, e1⟩ := t1
    rw [h1] at h
    simp only at h
    cases h2 : createResTarget m1 s1 with
    | none => rw [h2] at h; cases h
    | some t2 =>
      obtain ⟨m2, s2, e2⟩ := t2
      rw [h2] at h
      simp only [Option.some.injEq, Prod.mk.injEq] at h
      obtain ⟨-, -, hev⟩ := h
      intro e he
      rw [← hev] at he
      rcases List.mem_append.mp he with hm | hm
      · exact createResTex_events next r m1 s1 e1 h1 e hm
      · exact createResTarget_events m1 s1 m2 s2 e2 h2 e hm

/-- Events produced by devirtualizing a list of resources are driver create
calls. -/
theorem devirtAll_events (ids : List Nat) (reg : List Resource) (next : Nat)
    (reg' : List Resource) (next' : Nat) (ev : List Event)
    (h : devirtAll reg next ids = some (reg', next', ev)) :
    ∀ e ∈ ev, e.isCreate = true := by
  induction ids generalizing reg next reg' next' ev with
  | nil =>
    unfold devirtAll at h
    obtain ⟨-, -, hev⟩ : _ ∧ _ ∧ ([] : List Event) = ev := by
      simpa only [Option.some.injEq, Prod.mk.injEq] using h
    subst hev
    intro e he
    cases he
  | cons i rest ih =>
    unfold devirtAll at h
    cases hr : reg[i]? with
    | none => rw [hr] at h; cases h
    | some r =>
      rw [hr] at h
      simp only at h
      cases hc : createRes next r with
      | none => rw [hc] at h; cases h
      | some t1 =>
        obtain ⟨n1, r1, e1⟩ := t1
        rw [hc] at h
        simp only at h
        cases hd : devirtAll (reg.set i r1) n1 rest with
        | none => rw [hd] at h; cases h
        | some t2 =>
          obtain ⟨rg2, n2, e2⟩ := t2
          rw [hd] at h
          obtain ⟨-, -, hev⟩ : _ ∧ _ ∧ _ = ev := by
            simpa only [Option.some.injEq, Prod.mk.injEq] using h
          subst hev
          intro e he
          rcases List.mem_append.mp he with hm | hm
          · exact createRes_events next r n1 r1 e1 hc e hm
          · exact ih (reg.set i r1) n1 rg2 n2 e2 hd e hm

/-- Events produced by `Resource::destroy` are driver destroy calls. -/
theorem destroyRes_events (r : Resource) :
    ∀ e ∈ (destroyRes r).2, e.isDestroy = true := by
  unfold destroyRes
  rcases r.tex0 with _ | t0 <;> rcases h1 : r.tex1 with _ | t1 <;>
    rcases h2 : r.target with _ | tg <;>
    simp_all [Event.isDestroy]

/-- Events produced by destroying a list of resources are driver destroy
calls. -/
theorem destroyAll_events (ids : List Nat) (reg : List Resource)
    (reg' : List Resource) (ev : List Event)
    (h : destroyAll reg ids = some (reg', ev)) :
    ∀ e ∈ ev, e.isDestroy = true := by
  induction ids generalizing reg reg' ev with
  | nil =>
    unfold destroyAll at h
    obtain ⟨-, hev⟩ : _ ∧ ([] : List Event) = ev := by
      simpa only [Option.some.injEq, Prod.mk.injEq] using h
    subst hev
    intro e he
    cases he
  | cons i rest ih =>
    unfold destroyAll at h
    cases hr : reg[i]? with
    | none => rw [hr] at h; cases h
    | some r =>
      rw [hr] at h
      simp only at h
      cases hd : destroyAll (reg.set i (destroyRes r).1) rest with
      | none => rw [hd] at h; cases h
      | some t2 =>
        obtain ⟨rg2, e2⟩ := t2
        rw [hd] at h
        obtain ⟨-, hev⟩ : _ ∧ _ = ev := by
          simpa only [Option.some.injEq, Prod.mk.injEq] using h
        subst hev
        intro e he
        rcases List.mem_append.mp he with hm | hm
        · exact destroyRes_events r e hm
        · exact ih (reg.set i (destroyRes r).1) rg2 e2 hd e hm

/-- A driver create call contributes no executor marker to `execIds`. -/
theorem execIds_all_aux (ev : List Event)
    (h : ∀ e ∈ ev, e.isCreate = true ∨ e.isDestroy = true) :
    execIds ev = [] := by
  induction ev with
  | nil => rfl
  | cons e rest ih =>
    have he := h e (List.mem_cons_self e rest)
    have hrest := ih (fun x hx => h x (List.mem_cons_of_mem e hx))
    cases e <;> simp_all [execIds, Event.isCreate, Event.isDestroy]

/-- `execIds` distributes over append. -/
theorem execIds_append (a b : List Event) :
    execIds (a ++ b) = execIds a ++ execIds b := by
  unfold execIds
  exact List.filterMap_append a b _

/-- The executor markers of a successful execute loop are exactly the ids of
the passes with non-zero `refCount`, in registration order. -/
theorem execGo_execIds (ps : List PassNode) (reg : List Resource)
    (next : Nat) (reg' : List Resource) (next' : Nat) (tr : List Event)
    (h : execGo ps reg next = some (reg', next', tr)) :
    execIds tr = (livePasses ps).map (fun p => p.id) := by
  induction ps generalizing reg next reg' next' tr with
  | nil =>
    obtain ⟨-, -, hev⟩ : _ ∧ _ ∧ ([] : List Event) = tr := by
      simpa only [execGo, Option.some.injEq, Prod.mk.injEq] using h
    subst hev
    rfl
  | cons p rest ih =>
    unfold execGo at h
    cases hrp : runPassNode reg next p with
    | none => rw [hrp] at h; exact Option.noConfusion h
    | some t1 =>
      obtain ⟨reg1, next1, ev1⟩ := t1
      rw [hrp] at h
      simp only at h
      cases hgo : execGo rest reg1 next1 with
      | none => rw [hgo] at h; exact Option.noConfusion h
      | some t2 =>
        obtain ⟨reg2, next2, ev2⟩ := t2
        rw [hgo] at h
        obtain ⟨-, -, hev⟩ : _ ∧ _ ∧ ev1 ++ ev2 = tr := by
          simpa only [Option.some.injEq, Prod.mk.injEq] using h
        subst hev
        unfold runPassNode at hrp
        by_cases hrc : p.refCount = 0
        · rw [if_pos hrc] at hrp
          obtain ⟨-, -, hev1⟩ : _ ∧ _ ∧ ([] : List Event) = ev1 := by
            simpa only [Option.some.injEq, Prod.mk.injEq] using hrp
          subst hev1
          have : livePasses (p :: rest) = livePasses rest := by
            simp [livePasses, List.filter_cons, hrc]
          rw [this, List.nil_append]
          exact ih reg1 next1 reg2 next2 ev2 hgo
        · rw [if_neg hrc] at hrp
          cases hdv : devirtAll reg next p.devirtualize with
          | none => rw [hdv] at hrp; exact Option.noConfusion hrp
          | some t3 =>
            obtain ⟨rga, nexta, evC⟩ := t3
            rw [hdv] at hrp
            simp only at hrp
            cases hds : destroyAll rga p.destroy with
            | none => rw [hds] at hrp; exact Option.noConfusion hrp
            | some t4 =>
              obtain ⟨rgb, evD⟩ := t4
              rw [hds] at hrp
              obtain ⟨-, -, hev1⟩ :
                  _ ∧ _ ∧ evC ++ [Event.execPass p.id] ++ evD = ev1 := by
                simpa only [Option.some.injEq, Prod.mk.injEq] using hrp
              subst hev1
              have hC : execIds evC = [] :=
                execIds_all_aux evC (fun e he =>
                  Or.inl (devirtAll_events p.devirtualize reg next
                    rga nexta evC hdv e he))
              have hD : execIds evD = [] :=
                execIds_all_aux evD (fun e he =>
                  Or.inr (destroyAll_events p.destroy rga rgb evD hds e he))
              have hl : livePasses (p :: rest) = p :: livePasses rest := by
                simp [livePasses, List.filter_cons, hrc]
              rw [execIds_append, execIds_append, execIds_append, hC, hD,
                  ih reg1 next1 reg2 next2 ev2 hgo, hl]
              rfl

/-- Segment decomposition of a successful execute loop: one segment per
live pass, each of the form creates ++ executor ++ destroys; culled passes
contribute nothing. -/
theorem execGo_segments (ps : List PassNode) (reg : List Resource)
    (next : Nat) (reg' : List Resource) (next' : Nat) (tr : List Event)
    (h : execGo ps reg next = some (reg', next', tr)) :
    ∃ segs : List (List Event),
      tr = segs.flatten ∧
      segs.length = (livePasses ps).length ∧
      ∀ k, k < segs.length →
        ∃ c d, segs.getD k [] =
            c ++ Event.execPass ((livePasses ps).getD k default).id :: d ∧
          (∀ e ∈ c, e.isCreate = true) ∧ (∀ e ∈ d, e.isDestroy = true) := by
  induction ps generalizing reg next reg' next' tr with
  | nil =>
    obtain ⟨-, -, hev⟩ : _ ∧ _ ∧ ([] : List Event) = tr := by
      simpa only [execGo, Option.some.injEq, Prod.mk.injEq] using h
    subst hev
    exact ⟨[], rfl, rfl, fun k hk => absurd hk (by simp)⟩
  | cons p rest ih =>
    unfold execGo at h
    cases hrp : runPassNode reg next p with
    | none => rw [hrp] at h; exact Option.noConfusion h
    | some t1 =>
      obtain ⟨reg1, next1, ev1⟩ := t1
      rw [hrp] at h
      simp only at h
      cases hgo : execGo rest reg1 next1 with
      | none => rw [hgo] at h; exact Option.noConfusion h
      | some t2 =>
        obtain ⟨reg2, next2, ev2⟩ := t2
        rw [hgo] at h
        obtain ⟨-, -, hev⟩ : _ ∧ _ ∧ ev1 ++ ev2 = tr := by
          simpa only [Option.some.injEq, Prod.mk.injEq] using h
        subst hev
        obtain ⟨segs, hflat, hlen, hshape⟩ :=
          ih reg1 next1 reg2 next2 ev2 hgo
        unfold runPassNode at hrp
        by_cases hrc : p.refCount = 0
        · rw [if_pos hrc] at hrp
          obtain ⟨-, -, hev1⟩ : _ ∧ _ ∧ ([] : List Event) = ev1 := by
            simpa only [Option.some.injEq, Prod.mk.injEq] using hrp
          subst hev1
          have hl : livePasses (p :: rest) = livePasses rest := by
            simp [livePasses, List.filter_cons, hrc]
          exact ⟨segs, by rw [List.nil_append, hflat], by rw [hl, hlen],
            by rw [hl]; exact hshape⟩
        · rw [if_neg hrc] at hrp
          cases hdv : devirtAll reg next p.devirtualize with
          | none => rw [hdv] at hrp; exact Option.noConfusion hrp
          | some t3 =>
            obtain ⟨rga, nexta, evC⟩ := t3
            rw [hdv] at hrp
            simp only at hrp
            cases hds : destroyAll rga p.destroy with
            | none => rw [hds] at hrp; exact Option.noConfusion hrp
            | some t4 =>
              obtain ⟨rgb, evD⟩ := t4
              rw [hds] at hrp
              obtain ⟨-, -, hev1⟩ :
                  _ ∧ _ ∧ evC ++ [Event.execPass p.id] ++ evD = ev1 := by
                simpa only [Option.some.injEq, Prod.mk.injEq] using hrp
              subst hev1
              have hl : livePasses (p :: rest) = p :: livePasses rest := by
                simp [livePasses, List.filter_cons, hrc]
              refine ⟨(evC ++ Event.execPass p.id :: evD) :: segs, ?_, ?_, ?_⟩
              · rw [List.flatten_cons, ← hflat]
                simp
              · rw [hl]
                simpa using hlen
              · intro k hk
                match k with
                | 0 =>
                  refine ⟨evC, evD, by simp [hl], ?_, ?_⟩
                  · exact devirtAll_events p.devirtualize reg next
                      rga nexta evC hdv
                  · exact destroyAll_events p.destroy rga rgb evD hds
                | k + 1 =>
                  have hk' : k < segs.length := by
                    simpa using hk
                  obtain ⟨c, d, hseg, hc, hd⟩ := hshape k hk'
                  exact ⟨c, d, by simpa [hl] using hseg, hc, hd⟩

/-- Claim C6: a successful `execute` visits exactly the passes with
non-zero `refCount`, in registration order (so in strictly ascending id
order whenever the registered ids are ascending); culled passes contribute
no event at all; and the trace decomposes into one segment per executed
pass of the form create calls, then the executor invocation, then destroy
calls. -/
theorem c6_execute_order (fg : FrameGraph) (tr : List Event)
    (fg' : FrameGraph) (h : executeFG fg = some (tr, fg')) :
    execIds tr = (livePasses fg.passNodes).map (fun p => p.id) ∧
    ((fg.passNodes.map (fun p => p.id)).Pairwise (· < ·) →
      (execIds tr).Pairwise (· < ·)) ∧
    ∃ segs : List (List Event),
      tr = segs.flatten ∧
      segs.length = (livePasses fg.passNodes).length ∧
      ∀ k, k < segs.length →
        ∃ c d, segs.getD k [] =
            c ++ Event.execPass
              ((livePasses fg.passNodes).getD k default).id :: d ∧
          (∀ e ∈ c, e.isCreate = true) ∧ (∀ e ∈ d, e.isDestroy = true) := by
  have hgo : ∃ reg next, execGo fg.passNodes fg.resourceRegistry 0 =
      some (reg, next, tr) := by
    unfold executeFG at h
    cases hg : execGo fg.passNodes fg.resourceRegistry 0 with
    | none => rw [hg] at h; exact Option.noConfusion h
    | some t =>
      obtain ⟨reg, next, ev⟩ := t
      rw [hg] at h
      simp only at h
      split at h
      · obtain ⟨hev, -⟩ : ev = tr ∧ _ := by
          simpa only [Option.some.injEq, Prod.mk.injEq] using h
        subst hev
        exact ⟨reg, next, rfl⟩
      · exact Option.noConfusion h
  obtain ⟨reg, next, hgo⟩ := hgo
  have hids := execGo_execIds fg.passNodes fg.resourceRegistry 0
    reg next tr hgo
  refine ⟨hids, ?_, execGo_segments fg.passNodes fg.resourceRegistry 0
    reg next tr hgo⟩
  intro hpw
  rw [hids]
  exact hpw.sublist ((List.filter_sublist fg.passNodes).map (fun p => p.id))

/-- Claim C6 (witness): the read-own-write scenario, whose single live pass
produces the segment creates-executor-destroys. -/
theorem c6_execute_order_witness :
    execIds rwTrace = (livePasses rwCompiled.passNodes).map (fun p => p.id) ∧
    ((rwCompiled.passNodes.map (fun p => p.id)).Pairwise (· < ·) →
      (execIds rwTrace).Pairwise (· < ·)) ∧
    ∃ segs : List (List Event),
      rwTrace = segs.flatten ∧
      segs.length = (livePasses rwCompiled.passNodes).length ∧
      ∀ k, k < segs.length →
        ∃ c d, segs.getD k [] =
            c ++ Event.execPass
              ((livePasses rwCompiled.passNodes).getD k default).id :: d ∧
          (∀ e ∈ c, e.isCreate = true) ∧ (∀ e ∈ d, e.isDestroy = true) := by
  exact c6_execute_order rwCompiled rwTrace emptyFG (by decide)

end FG
